import Mathlib

/-!
Shallow embedding of the CenQuery backend (`Backend/main.py`) query-routing and
self-healing execution pipeline, together with proofs about it.

Conventions:
* Python strings are modelled as Lean `String` / `List Char`.  All reasoning is
  over ASCII text (the SQL statements, keywords and error messages produced by
  the system are ASCII); Python's Unicode-aware `str.lower`, `\w`, `\b` and
  `str.isupper` are modelled by their ASCII restrictions.
* Python sets of strings are modelled as `Finset String` when the code treats
  them as sets (intents, table sets), and as `List String` when only iteration
  and membership matter (keyword lists, the column catalogue).
* Data loaded at runtime (the CSV keyword files, `database_schema.json`) is a
  parameter of the corresponding definition.
-/

/-! ### Basic string helpers -/

/-- Occurrence test: does `pat` occur as a contiguous substring of `l`? -/
def hasOcc (pat : List Char) : List Char → Bool
  | [] => pat.isPrefixOf []
  | c :: cs => pat.isPrefixOf (c :: cs) || hasOcc pat cs

/-- Python's substring test `pat in s` (`True` for the empty pattern). -/
def containsSub (s pat : String) : Bool := hasOcc pat.toList s.toList

/-- ASCII lower-casing of a string, Python `str.lower` restricted to ASCII. -/
def pyLower (s : String) : String :=
  String.mk (s.toList.map Char.toLower)

/-! ### Intent classifier (`detect_intents`, main.py lines 252-264) -/

/-- One entry of the `INTENTS` dict: intent name, strong keyword set, weak
keyword set.  Sets are modelled as lists; only `any`-membership is used. -/
structure IntentDef where
  name : String
  strong : List String
  weak : List String
deriving Repr, DecidableEq

/-- The `INTENTS` table of `main.py` (lines 63-150).  The religion, language
and age-group strong sets additionally contain keywords loaded at runtime from
CSV files (`LANGUAGE_KEYWORDS`, `RELIGION_KEYWORDS`, `AGE_GROUP_KEYWORDS`);
those are passed in as parameters. -/
def INTENTS (langKw relKw ageKw : List String) : List IntentDef :=
  [ { name := "population"
    , strong := ["population", "people", "persons", "count", "total",
        "live", "living", "men", "women", "male", "female",
        "boys", "girls", "sex ratio", "gender", "households",
        "dwellers", "villagers", "citizens", "residents"]
    , weak := ["most", "least", "largest", "smallest", "fewest",
        "more", "less", "higher", "lower",
        "ratio", "gap", "difference", "percentage", "percent"] }
  , { name := "religion"
    , strong := relKw ++ ["religion", "religious", "faith", "community",
        "parsi", "parsis", "zoroastrian", "zoroastrians"]
    , weak := [] }
  , { name := "language"
    , strong := langKw ++ ["language", "languages", "spoken", "speakers", "mother tongue"]
    , weak := [] }
  , { name := "education"
    , strong := ["literacy", "literate", "illiterate",
        "education", "educated", "schooling", "school",
        "university", "college", "degree", "diploma", "pre-primary"]
    , weak := ["rate"] }
  , { name := "occupation"
    , strong := ["work", "working", "worker", "employment",
        "non-worker", "workforce", "participation",
        "job", "jobs", "employed", "unemployed", "cultivator",
        "labourer", "agricultural", "paid", "cash",
        "marginal", "main", "industry", "industries", "engaged"]
    , weak := [] }
  , { name := "health"
    , strong := ["health", "mortality", "fertility", "disease", "anaemia", "diabetes",
        "vaccinated", "vaccination", "vaccine", "vaccines",
        "stunting", "stunted", "wasting", "wasted",
        "underweight", "overweight", "obese", "obesity", "bmi",
        "birth", "births", "delivery", "deliveries", "antenatal", "postnatal",
        "breastfed", "breastfeeding", "diet", "nutrition",
        "blood sugar", "blood pressure", "hypertension",
        "hygienic", "menstruation", "sanitation", "clean fuel", "cooking fuel",
        "electricity", "drinking water", "water", "toilet",
        "internet", "bank account", "mobile phone", "insurance",
        "violence", "crime", "tobacco", "alcohol", "smoking",
        "fever", "ari", "diarrhoea", "treatment", "advice",
        "vitamin", "iodized", "salt", "cancer", "screening", "c-section",
        "hiv", "aids", "condom", "knowledge",
        "anaemic", "pregnant", "pregnancy", "married", "marriage",
        "waist", "hip", "folic", "acid", "decision", "owning", "house", "land",
        "registered", "registration", "authority"]
    , weak := [] }
  , { name := "age"
    , strong := ageKw ++ ["age", "children", "elderly", "youth",
        "adult", "adults", "working age", "teenagers", "seniors",
        "0-6", "15-49", "60+"]
    , weak := [] }
  , { name := "agriculture"
    , strong := ["agriculture", "agricultural", "crop", "crops", "farming",
        "sown", "sowing", "harvest", "harvesting", "yield", "production",
        "area", "dafw", "hectare", "hectares", "tonnes", "metric",
        "rice", "wheat", "maize", "jute", "sugarcane", "cotton",
        "oilseeds", "pulses", "cereals", "millet", "millets",
        "foodgrains", "nutri", "soybean", "barley", "groundnut",
        "ragi", "jowar", "bajra", "tur", "gram", "lentil"]
    , weak := ["normal", "season", "growth"] }
  ]

/-- `detect_intents` (main.py lines 252-264): strong pass over the lower-cased
question, then - only if some intent is already active - a weak pass. -/
def detect_intents (intents : List IntentDef) (question : String) : Finset String :=
  let q := pyLower question
  let active := intents.foldl
    (fun acc i => if i.strong.any (fun t => containsSub q t) then insert i.name acc else acc)
    (∅ : Finset String)
  if active = ∅ then active
  else intents.foldl
    (fun acc i => if i.weak.any (fun t => containsSub q t) then insert i.name acc else acc)
    active

/-! ### Table selector (`select_tables`, main.py lines 267-283) -/

/-- `MAX_OPTIONAL_TABLES` (main.py line 38). -/
def MAX_OPTIONAL_TABLES : Nat := 6

/-- `CORE_TABLES` (main.py line 39). -/
def CORE_TABLES : Finset String :=
  {"regions", "tru", "languages", "religions", "age_groups"}

/-- `RULES` (main.py lines 152-161): intent name paired with the tables it adds. -/
def RULES : List (String × Finset String) :=
  [ ("religion", {"religion_stats"})
  , ("language", {"language_stats"})
  , ("population", {"population_stats"})
  , ("health", {"healthcare_stats"})
  , ("age", {"population_stats"})
  , ("occupation", {"occupation_stats", "education_stats"})
  , ("education", {"education_stats", "religion_stats"})
  , ("agriculture", {"crop_stats"})
  ]

/-- The body of `select_tables` after intent detection (main.py lines 269-283).
Python truncates the over-cap optional set by `set(list(optional)[:MAX])`,
whose order is the unspecified (but deterministic per process) set iteration
order; we model it as a deterministic sorted-order truncation.  The
truncation branch is proved unreachable (claim C10), so this choice does not
influence any observable result. -/
def selectTablesFromIntents (intents : Finset String) : Finset String :=
  if "agriculture" ∈ intents then {"crop_stats"}
  else
    let tables := RULES.foldl
      (fun acc r => if r.1 ∈ intents then acc ∪ r.2 else acc) CORE_TABLES
    let optional := tables \ CORE_TABLES
    let optional :=
      if MAX_OPTIONAL_TABLES < optional.card then
        (((optional.sort (· ≤ ·)).take MAX_OPTIONAL_TABLES).toFinset)
      else optional
    CORE_TABLES ∪ optional

/-- `select_tables` (main.py lines 267-283). -/
def select_tables (langKw relKw ageKw : List String) (question : String) : Finset String :=
  selectTablesFromIntents (detect_intents (INTENTS langKw relKw ageKw) question)

/-- Union of the `adds` sets of the rules whose intent is active: what the rule
loop of `select_tables` contributes beyond the core set. -/
def activeAdds (intents : Finset String) : Finset String :=
  RULES.foldr (fun r s => (if r.1 ∈ intents then r.2 else ∅) ∪ s) ∅

/-- Union of the `adds` sets of every rule other than the agriculture rule. -/
def nonAgriAdds : Finset String :=
  (RULES.filter (fun r => r.1 ≠ "agriculture")).foldr (fun r s => r.2 ∪ s) ∅

/-! ### SQL normalizer: `sanitize_dot_columns` (main.py lines 301-304)

`re.sub(r'\b([a-zA-Z0-9_]+)\.([a-zA-Z0-9_]+\.[0-9]+)\b', r'\1."\2"', sql)` is
modelled by a left-to-right scanner.  Because the character classes of the
pattern are disjoint from the literal `.` and because shrinking a greedy run
makes the following literal fail on a character of the same class, the regex
engine's backtracking never changes the outcome: each run is the maximal one.
The leading `\b` holds at a position iff the previous character is not a word
character (or the position is the start), and the trailing `\b` holds iff the
character following the digit run is not a word character (or the end). -/

/-- The character class `[a-zA-Z0-9_]` (ASCII restriction of `\w`). -/
def isWordChar (c : Char) : Bool := c.isAlphanum || c = '_'

/-- Expect a literal `.` and return what follows. -/
def expectDot : List Char → Option (List Char)
  | c :: r => if c = '.' then some r else none
  | [] => none

/-- Whether the first character exists and is a word character (negated
trailing `\b` test). -/
def headIsWord : List Char → Bool
  | [] => false
  | c :: _ => isWordChar c

/-- Try to match `([a-zA-Z0-9_]+)\.([a-zA-Z0-9_]+\.[0-9]+)\b` at the head of
`l`; on success return the alias run, the identifier run, the digit run and
the remainder of the string. -/
def matchAt (l : List Char) : Option (List Char × List Char × List Char × List Char) :=
  if l.takeWhile isWordChar = [] then none
  else
    (expectDot (l.dropWhile isWordChar)).bind (fun r1 =>
      if r1.takeWhile isWordChar = [] then none
      else
        (expectDot (r1.dropWhile isWordChar)).bind (fun r2 =>
          if r2.takeWhile Char.isDigit = [] then none
          else if headIsWord (r2.dropWhile Char.isDigit) then none
          else some (l.takeWhile isWordChar, r1.takeWhile isWordChar,
            r2.takeWhile Char.isDigit, r2.dropWhile Char.isDigit)))

/-- The scanner of `re.sub`: walk the string; at every position where the
previous character is not a word character, try the pattern; on a match emit
`\1."\2"` and continue after the match (the boundary state after a match is
that of its final character, a digit, hence a word character).  Fuel is the
number of characters still to be consumed; each step consumes at least one. -/
def sanAux : Nat → Bool → List Char → List Char
  | 0, _, l => l
  | _ + 1, _, [] => []
  | fuel + 1, prevW, c :: cs =>
    match (if prevW then none else matchAt (c :: cs)) with
    | some (A, W, D, rest) =>
        A ++ '.' :: '"' :: (W ++ '.' :: (D ++ '"' :: sanAux fuel true rest))
    | none => c :: sanAux fuel (isWordChar c) cs

/-- Fuel-saturated scanner. -/
def sanList (b : Bool) (l : List Char) : List Char := sanAux (l.length + 1) b l

/-- `sanitize_dot_columns` (main.py lines 301-304). -/
def sanitize_dot_columns (s : String) : String := String.mk (sanList false s.toList)

/-! ### Python string primitives used by the pipeline -/

/-- One pass of Python `str.replace`: scan left to right, replace each
leftmost non-overlapping occurrence, continue after the replaced occurrence.
Fuel is an upper bound on the number of characters consumed; each step
consumes at least one when the pattern is nonempty. -/
def replFuel (pat rep : List Char) : Nat → List Char → List Char
  | 0, l => l
  | _ + 1, [] => []
  | fuel + 1, c :: cs =>
    if pat.isPrefixOf (c :: cs) then rep ++ replFuel pat rep fuel ((c :: cs).drop pat.length)
    else c :: replFuel pat rep fuel cs

/-- Python `s.replace(pat, rep)` (for the empty pattern Python inserts `rep`
at every position; the pipeline never calls it that way, but we keep the
faithful behaviour). -/
def pyReplace (s pat rep : String) : String :=
  if pat.toList = [] then
    String.mk (rep.toList ++ (s.toList.map (fun c => c :: rep.toList)).flatten)
  else
    String.mk (replFuel pat.toList rep.toList (s.toList.length + 1) s.toList)

/-- The whitespace class of Python `str.strip` (ASCII part). -/
def isPySpace (c : Char) : Bool :=
  c = ' ' || c = '\t' || c = '\n' || c = '\r' || c = '\x0b' || c = '\x0c'

/-- Python `str.strip()` (ASCII whitespace). -/
def pyStrip (s : String) : String :=
  String.mk (((s.toList.dropWhile isPySpace).reverse.dropWhile isPySpace).reverse)

/-! ### SQL normalizer (`_call_remote_llm`, main.py lines 382-387)

`sql_query = raw_sql.replace("```sql", "").replace("```", "").strip()`, then
`if ";" in sql_query: sql_query = sql_query.split(";")[0] + ";"`, then
`sql_query = sanitize_dot_columns(sql_query)`. -/
def normalizeSql (raw : String) : String :=
  let s1 := pyStrip (pyReplace (pyReplace raw "```sql" "") "```" "")
  let s2 := if containsSub s1 ";" then String.mk (s1.toList.takeWhile (fun c => c ≠ ';')) ++ ";"
            else s1
  sanitize_dot_columns s2

/-- The fence-stripping and whitespace-stripping stage of the normalizer. -/
def stripRepl (raw : String) : String :=
  pyStrip (pyReplace (pyReplace raw "```sql" "") "```" "")

/-- The first-statement truncation stage of the normalizer. -/
def truncSemi (s : String) : String :=
  if containsSub s ";" then String.mk (s.toList.takeWhile (fun c => c ≠ ';')) ++ ";" else s

/-! ### `difflib.get_close_matches` (used by `heal_sql_query`)

`difflib.SequenceMatcher` with no junk (the word argument is far shorter than
the 200-character autojunk threshold, so the popularity heuristic is off).
`find_longest_match` is the classic quadratic scan: row `i` of the dynamic
programme holds, for every `j`, the length of the longest common suffix of
`a[..i]` and `b[..j]`; the first strictly-larger block (smallest end `i`,
then smallest end `j`) is kept, exactly as the Python loop with its strict
`k > bestsize` test.  `ratio` is `2*M/(len(a)+len(b))` where `M` is the total
size of the matching blocks obtained by recursing on both sides of the
longest match.  `quick_ratio` and `real_quick_ratio` are upper bounds of
`ratio`, so the `get_close_matches` candidate filter is equivalent to
`ratio >= cutoff`; ties between equal ratios are resolved by
`heapq.nlargest` on `(ratio, name)` pairs, i.e. by the larger name. -/

/-- Next row of the longest-common-suffix table: `row'[j] = row[j-1] + 1` when
`b[j]` equals the current character of `a`, else `0`.  The second argument is
the previous row shifted right by one (a leading `0` is consed by the caller);
a missing entry counts as `0`. -/
def rowAux (ac : Char) : List Char → List Nat → List Nat
  | [], _ => []
  | c :: bs, [] => (if c = ac then 1 else 0) :: rowAux ac bs []
  | c :: bs, p :: ps => (if c = ac then p + 1 else 0) :: rowAux ac bs ps

/-- Update the best block `(i0, j0, size)` with row `i`, scanning `j`
ascending and keeping the first strictly larger block, like the Python loop. -/
def scanRow (i : Nat) (row : List Nat) (best : Nat × Nat × Nat) : Nat × Nat × Nat :=
  row.enum.foldl
    (fun bst jk => if bst.2.2 < jk.2 then (i + 1 - jk.2, jk.1 + 1 - jk.2, jk.2) else bst)
    best

/-- `SequenceMatcher.find_longest_match` over the whole of `a` and `b`
(no junk): returns `(i, j, size)`. -/
def findLongestMatch (a b : List Char) : Nat × Nat × Nat :=
  (a.enum.foldl
    (fun st ic =>
      let row := rowAux ic.2 b (0 :: st.1)
      (row, scanRow ic.1 row st.2))
    (List.replicate b.length 0, ((0, 0, 0) : Nat × Nat × Nat))).2

/-- Total size of the matching blocks (`get_matching_blocks`): recurse left
and right of the longest match.  Fuel bounds the recursion depth; each
recursive call strictly shrinks the combined length. -/
def msumAux : Nat → List Char → List Char → Nat
  | 0, _, _ => 0
  | fuel + 1, a, b =>
    let t := findLongestMatch a b
    if t.2.2 = 0 then 0
    else
      msumAux fuel (a.take t.1) (b.take t.2.1) + t.2.2 +
        msumAux fuel (a.drop (t.1 + t.2.2)) (b.drop (t.2.1 + t.2.2))

/-- Total matched size between two strings. -/
def matchTotal (a b : List Char) : Nat := msumAux (a.length + b.length + 1) a b

/-- `SequenceMatcher(None, x, w).ratio()` as an exact rational (Python computes
the same value in floating point; for the short identifiers involved both
the cutoff comparison and the tie comparisons agree with the exact value). -/
def simScore (x w : String) : ℚ :=
  if x.length + w.length = 0 then 1
  else (2 * matchTotal x.toList w.toList : ℚ) / ((x.length : ℚ) + (w.length : ℚ))

/-- The score of `SequenceMatcher(None, x, w).ratio()` as an unreduced
numerator/denominator pair of naturals (`2*M` over `len(x)+len(w)`, and `2/2`
for the empty/empty case whose ratio is defined as 1.0); comparisons are done
by cross multiplication, which agrees with the rational value `simScore`
since the denominators are positive. -/
def scPair (x w : String) : Nat × Nat :=
  if x.length + w.length = 0 then (2, 2)
  else (2 * matchTotal x.toList w.toList, x.length + w.length)

/-- Strict comparison of two score fractions by cross multiplication. -/
def pairLtB (p q : Nat × Nat) : Bool := decide (p.1 * q.2 < q.1 * p.2)

/-- Equality of two score fractions by cross multiplication. -/
def pairEqB (p q : Nat × Nat) : Bool := decide (p.1 * q.2 = q.1 * p.2)

/-- Lexicographic comparison of strings by code point, Python `str < str`
(structural, unlike the iterator-based core `String.lt`). -/
def listLtB : List Char → List Char → Bool
  | [], [] => false
  | [], _ :: _ => true
  | _ :: _, [] => false
  | a :: as, b :: bs =>
    if a.toNat < b.toNat then true
    else if b.toNat < a.toNat then false
    else listLtB as bs

/-- String comparison used for the `nlargest` tie-break. -/
def strLtB (a b : String) : Bool := listLtB a.toList b.toList

/-- `difflib.get_close_matches(w, cat, n=1, cutoff=0.5)`: the candidate of
score at least 1/2 maximising `(score, name)` (ties by the larger name, as
`heapq.nlargest` compares the `(ratio, name)` tuples). -/
def getCloseMatches1 (w : String) (cat : List String) : Option String :=
  cat.foldl
    (fun best x =>
      if pairLtB (scPair x w) (1, 2) then best
      else
        match best with
        | none => some x
        | some y =>
          if pairLtB (scPair y w) (scPair x w) ∨
              (pairEqB (scPair y w) (scPair x w) ∧ strLtB y x)
          then some x
          else some y)
    none

/-! ### `heal_sql_query` (main.py lines 307-338) -/

/-- Generic leftmost `re.search` driver: try the position matcher at every
suffix, leftmost first. -/
def searchFirst (f : List Char → Option α) : List Char → Option α
  | [] => f []
  | c :: cs =>
    match f (c :: cs) with
    | some a => some a
    | none => searchFirst f cs

/-- Position matcher for `column "([^"]+)" does not exist`: the capture is the
maximal nonempty run of non-quote characters (no backtracking is possible
since `[^"]` cannot match the closing quote). -/
def matchColQuoted (l : List Char) : Option String :=
  if ("column \"".toList).isPrefixOf l then
    let r := l.drop 8
    let run := r.takeWhile (fun c => c ≠ '"')
    if run ≠ [] ∧ ("\" does not exist".toList).isPrefixOf (r.drop run.length) then
      some (String.mk run)
    else none
  else none

/-- Position matcher for the fallback pattern `column ([^ ]+) does not exist`:
the capture is the maximal nonempty run of non-space characters. -/
def matchColBare (l : List Char) : Option String :=
  if ("column ".toList).isPrefixOf l then
    let r := l.drop 7
    let run := r.takeWhile (fun c => c ≠ ' ')
    if run ≠ [] ∧ (" does not exist".toList).isPrefixOf (r.drop run.length) then
      some (String.mk run)
    else none
  else none

/-- The two `re.search` calls of `heal_sql_query` (main.py lines 314-316). -/
def extractBadCol (errMsg : String) : Option String :=
  match searchFirst matchColQuoted errMsg.toList with
  | some c => some c
  | none => searchFirst matchColBare errMsg.toList

/-- `bad_col.split(".")[-1]` (main.py line 320): the suffix after the last
dot (the whole string when there is no dot, empty when it ends with a dot). -/
def stripAlias (badCol : String) : String :=
  String.mk ((badCol.toList.reverse.takeWhile (fun c => c ≠ '.')).reverse)

/-- First character is upper case (`clean_bad_col[0].isupper()`, ASCII). -/
def firstIsUpper (s : String) : Bool :=
  match s.toList with
  | [] => false
  | c :: _ => c.isUpper

/-- `heal_sql_query` (main.py lines 307-338), parameterised by the column
catalogue `ALL_COLUMN_NAMES` (runtime data from `database_schema.json`). -/
def heal_sql_query (allColumnNames : List String) (badSql errMsg : String) : String :=
  match extractBadCol errMsg with
  | none => badSql
  | some badCol =>
    let cleanBadCol := stripAlias badCol
    match getCloseMatches1 cleanBadCol allColumnNames with
    | some goodCol =>
      let replacement := if containsSub goodCol "." then "\"" ++ goodCol ++ "\"" else goodCol
      pyReplace badSql cleanBadCol replacement
    | none =>
      if cleanBadCol.toList ≠ [] ∧ (firstIsUpper cleanBadCol ∨ containsSub cleanBadCol " ") then
        pyReplace badSql ("\"" ++ cleanBadCol ++ "\"") ("'" ++ cleanBadCol ++ "'")
      else badSql

/-! ### Heuristic patcher (`patch_broken_sql`, main.py lines 397-479)

The two regex-based fixes (FIX 3: spurious `state_name` filters, FIX 4:
broken language joins) are modelled with deterministic sequential parsers:
every greedy quantifier in those patterns is followed by a literal drawn from
a disjoint character class, so regex backtracking cannot change the outcome.
All patterns carry `re.IGNORECASE`; under that flag backreferences also match
case-insensitively. -/

/-- Case-insensitive literal (ASCII), returning the remainder. -/
def litCI : List Char → List Char → Option (List Char)
  | [], l => some l
  | _ :: _, [] => none
  | p :: ps, c :: cs => if c.toLower = p.toLower then litCI ps cs else none

/-- Literal single character. -/
def litChar (x : Char) : List Char → Option (List Char)
  | c :: cs => if c = x then some cs else none
  | [] => none

/-- `\s+` (ASCII whitespace, at least one). -/
def ws1 (l : List Char) : Option (List Char) :=
  if l.takeWhile isPySpace = [] then none else some (l.dropWhile isPySpace)

/-- `\s*`. -/
def ws0 (l : List Char) : List Char := l.dropWhile isPySpace

/-- `(\w+)`: maximal nonempty word run, captured. -/
def wordRun1 (l : List Char) : Option (List Char × List Char) :=
  let r := l.takeWhile isWordChar
  if r = [] then none else some (r, l.dropWhile isWordChar)

/-- `'[^']+'`: quoted nonempty run. -/
def quotedRun (l : List Char) : Option (List Char) := do
  let r1 ← litChar '\'' l
  let run := r1.takeWhile (fun c => c ≠ '\'')
  if run = [] then none else litChar '\'' (r1.drop run.length)

/-- `AND\s+state_name\s+ILIKE\s+'[^']+'` after a `\b`. -/
def matchAndState (prevW : Bool) (l : List Char) : Option (List Char × Bool × List Char) :=
  if prevW then none
  else do
    let r ← litCI "and".toList l
    let r ← ws1 r
    let r ← litCI "state_name".toList r
    let r ← ws1 r
    let r ← litCI "ilike".toList r
    let r ← ws1 r
    let r ← quotedRun r
    some ([], false, r)

/-- `WHERE\s+state_name\s+ILIKE\s+'[^']+'` after a `\b`, replaced by
`WHERE 1=1`. -/
def matchWhereState (prevW : Bool) (l : List Char) : Option (List Char × Bool × List Char) :=
  if prevW then none
  else do
    let r ← litCI "where".toList l
    let r ← ws1 r
    let r ← litCI "state_name".toList r
    let r ← ws1 r
    let r ← litCI "ilike".toList r
    let r ← ws1 r
    let r ← quotedRun r
    some ("WHERE 1=1".toList, false, r)

/-- Common prefix `JOIN\s+languages\s+(\w+)\s+ON\s+(\w+)\.` of the three
bridge-join patterns; returns `(l_alias, stats_alias, remainder)`. -/
def matchJoinHead (l : List Char) : Option (List Char × List Char × List Char) := do
  let r ← litCI "join".toList l
  let r ← ws1 r
  let r ← litCI "languages".toList r
  let r ← ws1 r
  let (g1, r) ← wordRun1 r
  let r ← ws1 r
  let r ← litCI "on".toList r
  let r ← ws1 r
  let (g2, r) ← wordRun1 r
  let r ← expectDot r
  some (g1, g2, r)

/-- Tail `\s*=\s*\1\.` followed by a final literal. -/
def matchJoinTail (g1 : List Char) (fin : String) (l : List Char) : Option (List Char) := do
  let r ← litChar '=' (ws0 l)
  let r ← litCI g1 (ws0 r)
  let r ← expectDot r
  litCI fin.toList r

/-- `bridge_replacer` (main.py lines 457-467). -/
def bridgeReplacer (g1 g2 : List Char) : List Char :=
  let lAlias := String.mk g1
  let statsAlias := String.mk g2
  let bridgeAlias := "ls_" ++ lAlias
  let cond := statsAlias ++ ".state = " ++ bridgeAlias ++ ".state"
  let cond := if statsAlias ≠ "r" then
      cond ++ " AND " ++ statsAlias ++ ".tru_id = " ++ bridgeAlias ++ ".tru_id"
    else cond
  ("JOIN language_stats " ++ bridgeAlias ++ " ON " ++ cond ++ " JOIN languages " ++
    lAlias ++ " ON " ++ bridgeAlias ++ ".language_id = " ++ lAlias ++ ".id").toList

/-- `pattern_a = JOIN\s+languages\s+(\w+)\s+ON\s+(\w+)\.tru_id\s*=\s*\1\.tru_id`. -/
def matchJoinA (l : List Char) : Option (List Char × Bool × List Char) := do
  let (g1, g2, r) ← matchJoinHead l
  let r ← litCI "tru_id".toList r
  let r ← matchJoinTail g1 "tru_id" r
  some (bridgeReplacer g1 g2, true, r)

/-- `pattern_b = JOIN\s+languages\s+(\w+)\s+ON\s+(\w+)\.language_id\s*=\s*\1\.id`. -/
def matchJoinB (l : List Char) : Option (List Char × Bool × List Char) := do
  let (g1, g2, r) ← matchJoinHead l
  let r ← litCI "language_id".toList r
  let r ← matchJoinTail g1 "id" r
  some (bridgeReplacer g1 g2, true, r)

/-- `pattern_c = JOIN\s+languages\s+(\w+)\s+ON\s+(\w+)\.[\w]+\s*=\s*\1\.state`. -/
def matchJoinC (l : List Char) : Option (List Char × Bool × List Char) := do
  let (g1, g2, r) ← matchJoinHead l
  let (_, r) ← wordRun1 r
  let r ← matchJoinTail g1 "state" r
  some (bridgeReplacer g1 g2, true, r)

/-- `re.sub` driver: walk the string left to right, replacing each match and
continuing after it; the boolean is the word-character status of the previous
character (for the patterns with a leading `\b`).  Fuel bounds the characters
consumed; every match of the patterns above consumes at least one. -/
def reSubFuel (m : Bool → List Char → Option (List Char × Bool × List Char)) :
    Nat → Bool → List Char → List Char
  | 0, _, l => l
  | _ + 1, _, [] => []
  | fuel + 1, prevW, c :: cs =>
    match m prevW (c :: cs) with
    | some (rep, pw, rest) => rep ++ reSubFuel m fuel pw rest
    | none => c :: reSubFuel m fuel (isWordChar c) cs

/-- Run a sub over a string. -/
def reSub (m : Bool → List Char → Option (List Char × Bool × List Char)) (s : String) : String :=
  String.mk (reSubFuel m (s.toList.length + 1) false s.toList)

/-- FIX 3 of `patch_broken_sql` (main.py lines 442-449). -/
def fix3 (s : String) : String :=
  let s := reSub matchAndState s
  let s := reSub matchWhereState s
  pyReplace s "SELECT \"Rice\"" "SELECT 'Rice'"

/-- FIX 4 of `patch_broken_sql` (main.py lines 452-477); the three subs are
gated on the current value of the string, as in the source.  The `except`
branch of the source is dead code (the compiled patterns and the replacer
cannot raise), so it is not modelled. -/
def fix4 (s : String) : String :=
  let s1 := if containsSub s ".tru_id" then reSub (fun _ => matchJoinA) s else s
  let s2 := if containsSub s1 ".language_id" then reSub (fun _ => matchJoinB) s1 else s1
  if containsSub s2 ".state" then reSub (fun _ => matchJoinC) s2 else s2

/-- The FIX 1 pluralization replacement table (main.py lines 413-420), in
insertion order. -/
def replacementsList : List (String × String) :=
  [ ("illiterate_person ", "illiterate_persons ")
  , ("illiterate_person,", "illiterate_persons,")
  , ("illiterate_person)", "illiterate_persons)")
  , ("scheduled_castes_population_person", "scheduled_castes_person")
  , ("scheduled_tribes_population_person", "scheduled_tribes_person")
  , ("language_name", "name")
  ]

/-- The FIX 2 cross-schema column map (main.py lines 427-435), in insertion
order. -/
def columnMapList : List (String × String) :=
  [ ("tot_p", "total_person")
  , ("p_lit", "literates_person")
  , ("p_ill", "illiterate_persons")
  , ("no_hh", "no_of_households")
  , ("tot_m", "total_male")
  , ("tot_f", "total_female")
  , ("p_06", "population_in_the_age_group_06_person")
  ]

/-- `patch_broken_sql` (main.py lines 397-479). -/
def patch_broken_sql (s : String) : String :=
  if 2000 < s.length then s
  else
    let p0 := if containsSub s "BIGINT" then
        pyReplace (pyReplace s " BIGINT " " ") "BIGINT " " "
      else s
    let p1 := replacementsList.foldl
      (fun acc bg => if containsSub acc bg.1 then pyReplace acc bg.1 bg.2 else acc) p0
    let p2 := if containsSub p1 "education_stats" && !containsSub p1 "religion_stats" then
        columnMapList.foldl
          (fun acc bg =>
            pyReplace
              (pyReplace (pyReplace acc ("." ++ bg.1) ("." ++ bg.2))
                (" " ++ bg.1) (" " ++ bg.2))
              ("," ++ bg.1) ("," ++ bg.2))
          p1
      else p1
    let p3 := if containsSub p2 "crop_stats" then fix3 p2 else p2
    if containsSub p3 "languages" && !containsSub p3 "language_stats" then fix4 p3 else p3

/-! ### Self-healing executor (`execute_sql`, main.py lines 499-561)

The database engine is an external collaborator; it is modelled as a pair of
deterministic response functions (one for the transactional DML path, one for
the row-returning path), each mapping the executed statement text to either a
result or the text of the raised exception.  Rows are opaque values. -/

/-- The relational engine, as seen by `execute_sql`. -/
structure Db (ρ : Type) where
  execDml : String → Except String Nat
  runQuery : String → Except String (List ρ)

/-- The `result` field of the response: an affected-row count (DML branch),
a row list (read branch), or the stringified exception. -/
inductive ExecResult (ρ : Type) where
  | rowsAffected (n : Nat)
  | rows (rs : List ρ)
  | errMsg (e : String)
deriving DecidableEq, Repr

/-- The observable outcome of one `/execute-sql` request (latency and request
logging are external side effects and are not modelled); `attempts` counts
how many times a statement was sent to the engine. -/
structure ExecResponse (ρ : Type) where
  sql_query : String
  result : ExecResult ρ
  status : String
  healed : Bool
  attempts : Nat
deriving DecidableEq, Repr

/-- The DML keyword test (main.py line 521): a pure substring test on the
lower-cased statement. -/
def isDml (s : String) : Bool :=
  ["insert", "update", "delete", "create", "alter", "drop"].any
    (fun k => containsSub (pyLower s) k)

/-- One execution attempt (main.py lines 519-528): DML statements run in a
transaction and report `rowcount`; read statements return rows truncated to
1000. -/
def attemptOnce (db : Db ρ) (sql : String) : Except String (ExecResult ρ) :=
  if isDml sql then (db.execDml sql).map ExecResult.rowsAffected
  else (db.runQuery sql).map (fun rs => ExecResult.rows (rs.take 1000))

/-- The "column not found" test on the lower-cased exception text
(main.py line 536). -/
def isColumnErr (e : String) : Bool :=
  containsSub (pyLower e) "column" && containsSub (pyLower e) "does not exist"

/-- The retry loop of `execute_sql` (main.py lines 516-546): at most two
attempts, with a single `heal_sql_query` rewrite in between, attempted only
when the first failure is a missing-column error and the rewrite actually
changed the statement. -/
def execLoop (cat : List String) (db : Db ρ) (current1 : String) (healed0 : Bool) :
    ExecResponse ρ :=
  match attemptOnce db current1 with
  | .ok r => ⟨current1, r, "success", healed0, 1⟩
  | .error e =>
    if isColumnErr e then
      let newSql := heal_sql_query cat current1 e
      if newSql != current1 then
        match attemptOnce db newSql with
        | .ok r => ⟨newSql, r, "success", true, 2⟩
        | .error e2 => ⟨newSql, .errMsg e2, "error", true, 2⟩
      else ⟨current1, .errMsg e, "error", healed0, 1⟩
    else ⟨current1, .errMsg e, "error", healed0, 1⟩

/-- `execute_sql`, continued: normalization and patching happen before the
loop; the healed flag starts true iff the patch changed the statement. -/
def execute_sql (cat : List String) (db : Db ρ) (requestSql : String) : ExecResponse ρ :=
  let current0 := sanitize_dot_columns requestSql
  let patched := patch_broken_sql current0
  execLoop cat db (if patched != current0 then patched else current0) (patched != current0)

/-- The triple-backtick fence marker. -/
def tripleTick : List Char := ['`', '`', '`']

/-! ### Concrete engines and statements used in the claim examples -/

/-- An engine that answers every statement successfully with no rows and a
zero row count. -/
def dbAllOk : Db Unit := ⟨fun _ => Except.ok 0, fun _ => Except.ok []⟩

/-- An engine that answers every read with a single row. -/
def dbOneRow : Db Unit := ⟨fun _ => Except.ok 0, fun _ => Except.ok [()]⟩

/-- A canonical statement containing none of the patcher's trigger patterns. -/
def patchIdExample : String :=
  "SELECT total_person FROM population_stats WHERE region ILIKE 'kerala'"

/-- A statement longer than the 2000-character guard. -/
def longStatement : String := String.mk (List.replicate 2001 'x')

/-- Catalogue, statement and error of the spec's healing example. -/
def exCat : List String := ["illiterate_persons", "total_person"]

/-- The failing statement of the example (no patcher trigger applies to it:
`illiterate_person` is followed by a newline, not by space, comma or a
closing parenthesis). -/
def exBadSql : String := "SELECT illiterate_person\nFROM education_stats"

/-- The engine error of the example. -/
def exErrMsg : String := "column \"illiterate_person\" does not exist"

/-- The healed statement of the example. -/
def exHealedSql : String := "SELECT illiterate_persons\nFROM education_stats"

/-- An engine that rejects the example statement with the missing-column
error and accepts everything else. -/
def exDb : Db Unit :=
  ⟨fun _ => Except.ok 0,
   fun s => if s = exBadSql then Except.error exErrMsg else Except.ok []⟩


/-! ## Proofs -/

/-! ### Table-selector lemmas -/

/-- The rule loop of `select_tables` computes the union of the start set with
the `adds` of every active rule. -/
lemma foldl_rules_eq (intents : Finset String) :
    ∀ (l : List (String × Finset String)) (acc : Finset String),
      l.foldl (fun a r => if r.1 ∈ intents then a ∪ r.2 else a) acc =
        acc ∪ l.foldr (fun r s => (if r.1 ∈ intents then r.2 else ∅) ∪ s) ∅ := by
  intro l
  induction l with
  | nil => intro acc; simp
  | cons r l ih =>
    intro acc
    simp only [List.foldl_cons, List.foldr_cons, ih]
    by_cases h : r.1 ∈ intents <;> simp [h, Finset.union_assoc]

/-- Membership in an `if`-guarded set implies membership in the guarded set. -/
lemma mem_of_mem_ite_empty {P : Prop} [Decidable P] {A : Finset String} {x : String}
    (h : x ∈ if P then A else (∅ : Finset String)) : x ∈ A := by
  split at h
  · exact h
  · exact absurd h (Finset.not_mem_empty x)

/-- When agriculture is inactive, the active adds are among the non-agriculture
adds. -/
lemma activeAdds_subset_nonAgri {intents : Finset String}
    (hag : "agriculture" ∉ intents) : activeAdds intents ⊆ nonAgriAdds := by
  intro x hx
  simp only [activeAdds, RULES, List.foldr_cons, List.foldr_nil, Finset.union_empty,
    Finset.mem_union] at hx
  have hagr : ("agriculture" ∈ intents) = False := by simp [hag]
  rcases hx with h | h | h | h | h | h | h | h <;>
    [skip; skip; skip; skip; skip; skip; skip; exact absurd h (by simp [hagr])] <;>
    exact Finset.mem_of_subset (by decide) (mem_of_mem_ite_empty h)

/-- Non-agriculture table selection never truncates and equals core plus the
active adds. -/
lemma selectTables_no_agri (intents : Finset String) (hag : "agriculture" ∉ intents) :
    selectTablesFromIntents intents = CORE_TABLES ∪ activeAdds intents := by
  have hU : RULES.foldl (fun a r => if r.1 ∈ intents then a ∪ r.2 else a) CORE_TABLES =
      CORE_TABLES ∪ activeAdds intents := foldl_rules_eq intents RULES CORE_TABLES
  have hopt : (CORE_TABLES ∪ activeAdds intents) \ CORE_TABLES =
      activeAdds intents \ CORE_TABLES := by
    ext x; simp [Finset.mem_sdiff, Finset.mem_union]; tauto
  have hsub : activeAdds intents \ CORE_TABLES ⊆ nonAgriAdds \ CORE_TABLES :=
    Finset.sdiff_subset_sdiff (activeAdds_subset_nonAgri hag) (le_refl _)
  have hcard6 : (nonAgriAdds \ CORE_TABLES).card = 6 := by decide
  have hle : (activeAdds intents \ CORE_TABLES).card ≤ MAX_OPTIONAL_TABLES := by
    have := Finset.card_le_card hsub
    simpa [hcard6, MAX_OPTIONAL_TABLES] using this
  have hnotlt : ¬ MAX_OPTIONAL_TABLES < (activeAdds intents \ CORE_TABLES).card :=
    not_lt_of_le hle
  unfold selectTablesFromIntents
  simp only [hag, if_false, hU, hopt, hnotlt, if_neg hnotlt]
  exact Finset.union_sdiff_self_eq_union

/-! ### Claim C10 -/

/-- C10: in the non-agriculture path the truncation branch of the Table
Selector is unreachable: the union of the `adds` of all non-agriculture rules
has exactly 6 non-core tables, which is the configured cap, so for every
intent set without the agriculture intent the selector returns exactly the
core set united with the adds of every active rule, and the number of
optional tables never exceeds the cap. -/
theorem C10_no_truncation_in_non_agriculture_path :
    (nonAgriAdds \ CORE_TABLES).card = MAX_OPTIONAL_TABLES ∧
    ∀ intents : Finset String, "agriculture" ∉ intents →
      selectTablesFromIntents intents = CORE_TABLES ∪ activeAdds intents ∧
      (activeAdds intents \ CORE_TABLES).card ≤ MAX_OPTIONAL_TABLES := by
  refine ⟨by decide, fun intents hag => ⟨selectTables_no_agri intents hag, ?_⟩⟩
  have hsub : activeAdds intents \ CORE_TABLES ⊆ nonAgriAdds \ CORE_TABLES :=
    Finset.sdiff_subset_sdiff (activeAdds_subset_nonAgri hag) (le_refl _)
  have hcard6 : (nonAgriAdds \ CORE_TABLES).card = 6 := by decide
  have := Finset.card_le_card hsub
  simpa [hcard6, MAX_OPTIONAL_TABLES] using this

/-- Witness for C10 at the concrete intent set of a population question. -/
theorem C10_no_truncation_witness :
    ("agriculture" ∉ ({"population"} : Finset String)) ∧
    selectTablesFromIntents {"population"} = CORE_TABLES ∪ activeAdds {"population"} := by
  exact ⟨by decide, (C10_no_truncation_in_non_agriculture_path.2 {"population"} (by decide)).1⟩

/-! ### Claim C1 -/

/-- C1 counterexample: for the question "crop" the agriculture intent is
detected (with the default empty CSV keyword sets), the selector
short-circuits to the isolated crop table, and the core table `regions` is
not part of the selection - so the core set is not always a subset of the
selected set. -/
theorem C1_counterexample_core_not_subset :
    "regions" ∈ CORE_TABLES ∧
    select_tables [] [] [] "crop" = {"crop_stats"} ∧
    "regions" ∉ select_tables [] [] [] "crop" := by
  refine ⟨by decide, by decide, by decide⟩

/-- C1 amended: whenever the detected intents do not include the isolating
agriculture intent, the core table set is a subset of the selected table set
(for every CSV keyword configuration and every question). -/
theorem C1_core_subset_unless_agriculture (langKw relKw ageKw : List String) (q : String)
    (h : "agriculture" ∉ detect_intents (INTENTS langKw relKw ageKw) q) :
    CORE_TABLES ⊆ select_tables langKw relKw ageKw q := by
  unfold select_tables
  rw [selectTables_no_agri _ h]
  exact Finset.subset_union_left

/-- Witness for the amended C1 at the question "population". -/
theorem C1_core_subset_witness :
    ("agriculture" ∉ detect_intents (INTENTS [] [] []) "population") ∧
    CORE_TABLES ⊆ select_tables [] [] [] "population" :=
  ⟨by decide, C1_core_subset_unless_agriculture [] [] [] "population" (by decide)⟩

/-! ### Claim C5 -/

/-- C5: the weak pass of the Intent Classifier never activates an intent on
its own: if no strong keyword of any intent occurs in the lower-cased
question, the returned intent set is empty, whatever weak terms occur. -/
theorem C5_no_intent_from_weak_terms_alone (intents : List IntentDef) (q : String)
    (h : ∀ d ∈ intents, ∀ t ∈ d.strong, containsSub (pyLower q) t = false) :
    detect_intents intents q = ∅ := by
  unfold detect_intents
  have hstrong : ∀ (l : List IntentDef),
      (∀ d ∈ l, ∀ t ∈ d.strong, containsSub (pyLower q) t = false) →
      ∀ acc : Finset String,
        l.foldl (fun acc i =>
          if i.strong.any (fun t => containsSub (pyLower q) t) then insert i.name acc else acc)
          acc = acc := by
    intro l
    induction l with
    | nil => intro _ acc; rfl
    | cons d l ih =>
      intro hl acc
      have hd : d.strong.any (fun t => containsSub (pyLower q) t) = false := by
        rw [List.any_eq_false]
        exact fun t ht => by simpa using hl d (by simp) t ht
      simp only [List.foldl_cons, hd, Bool.false_eq_true, if_false]
      exact ih (fun d' hd' t ht => hl d' (by simp [hd']) t ht) acc
  simp only [hstrong intents h ∅]
  rfl

/-- Witness for C5: the question "most" contains the weak population term
"most" but no strong term of any intent; no intent is returned. -/
theorem C5_weak_terms_witness :
    (∀ d ∈ INTENTS [] [] [], ∀ t ∈ d.strong, containsSub (pyLower "most") t = false) ∧
    containsSub (pyLower "most") "most" = true ∧
    detect_intents (INTENTS [] [] []) "most" = ∅ :=
  ⟨by decide, by decide,
    C5_no_intent_from_weak_terms_alone (INTENTS [] [] []) "most" (by decide)⟩

/-! ### Executor lemmas and claims C2, C9, C4 -/

/-- A successful attempt that returns rows comes from the non-DML branch and
is truncated to 1000 rows. -/
lemma attemptOnce_rows {ρ : Type} {db : Db ρ} {s : String} {rs : List ρ}
    (h : attemptOnce db s = Except.ok (ExecResult.rows rs)) :
    isDml s = false ∧ rs.length ≤ 1000 := by
  unfold attemptOnce at h
  by_cases hd : isDml s
  · rw [if_pos hd] at h
    cases hdb : db.execDml s <;> simp [hdb, Except.map] at h
  · rw [if_neg hd] at h
    cases hdb : db.runQuery s with
    | error e => simp [hdb, Except.map] at h
    | ok l =>
      simp only [hdb, Except.map, Except.ok.injEq, ExecResult.rows.injEq] at h
      constructor
      · simpa using hd
      · rw [← h]
        exact List.length_take_le 1000 l

/-- A successful attempt that returns an affected-row count comes from the
DML branch. -/
lemma attemptOnce_rowsAffected {ρ : Type} {db : Db ρ} {s : String} {n : Nat}
    (h : attemptOnce db s = Except.ok (ExecResult.rowsAffected n)) :
    isDml s = true := by
  unfold attemptOnce at h
  by_cases hd : isDml s
  · exact hd
  · rw [if_neg hd] at h
    cases hdb : db.runQuery s <;> simp [hdb, Except.map] at h

/-- C2: the self-healing executor sends a statement to the engine at least
once and at most twice, whatever the engine does: at most one healing retry
follows the first failure, and a second failure is final. -/
lemma execLoop_attempts {ρ : Type} (cat : List String) (db : Db ρ) (s : String) (h0 : Bool) :
    1 ≤ (execLoop cat db s h0).attempts ∧ (execLoop cat db s h0).attempts ≤ 2 := by
  unfold execLoop
  cases attemptOnce db s with
  | ok r => exact ⟨by simp, by simp⟩
  | error e =>
    by_cases hc : isColumnErr e
    · simp only [hc, if_true]
      by_cases hne : (heal_sql_query cat s e != s) = true
      · simp only [hne, if_true]
        cases attemptOnce db (heal_sql_query cat s e) <;> exact ⟨by simp, by simp⟩
      · simp only [hne, if_false]
        exact ⟨by simp, by simp⟩
    · simp only [hc, Bool.false_eq_true, if_false]
      exact ⟨by simp, by simp⟩

/-- C2: the self-healing executor sends a statement to the engine at least
once and at most twice, whatever the engine does: at most one healing retry
follows the first failure, and a second failure is final. -/
theorem C2_at_most_two_attempts {ρ : Type} (cat : List String) (db : Db ρ) (q : String) :
    1 ≤ (execute_sql cat db q).attempts ∧ (execute_sql cat db q).attempts ≤ 2 := by
  unfold execute_sql
  exact execLoop_attempts cat db _ _

/-- A row-list outcome of the retry loop always comes from a non-DML execution
of the reported statement, truncated to 1000 rows. -/
lemma execLoop_rows {ρ : Type} {cat : List String} {db : Db ρ} {s : String} {h0 : Bool}
    {rs : List ρ} (h : (execLoop cat db s h0).result = ExecResult.rows rs) :
    rs.length ≤ 1000 ∧ isDml (execLoop cat db s h0).sql_query = false := by
  unfold execLoop at h ⊢
  cases h1 : attemptOnce db s with
  | ok r =>
    simp only [h1] at h ⊢
    have := @attemptOnce_rows _ _ _ rs (h ▸ h1)
    exact ⟨this.2, this.1⟩
  | error e =>
    simp only [h1] at h ⊢
    by_cases hc : isColumnErr e
    · simp only [hc, if_true] at h ⊢
      by_cases hne : (heal_sql_query cat s e != s) = true
      · simp only [hne, if_true] at h ⊢
        cases h2 : attemptOnce db (heal_sql_query cat s e) with
        | ok r =>
          simp only [h2] at h ⊢
          have := @attemptOnce_rows _ _ _ rs (h ▸ h2)
          exact ⟨this.2, this.1⟩
        | error e2 => simp only [h2] at h; exact absurd h (by simp)
      · simp only [hne, if_false] at h; exact absurd h (by simp)
    · simp only [hc, Bool.false_eq_true, if_false] at h; exact absurd h (by simp)

/-- An affected-row-count outcome of the retry loop always comes from a DML
execution of the reported statement. -/
lemma execLoop_rowsAffected {ρ : Type} {cat : List String} {db : Db ρ} {s : String}
    {h0 : Bool} {n : Nat}
    (h : (execLoop cat db s h0).result = ExecResult.rowsAffected n) :
    isDml (execLoop cat db s h0).sql_query = true := by
  unfold execLoop at h ⊢
  cases h1 : attemptOnce db s with
  | ok r =>
    simp only [h1] at h ⊢
    exact @attemptOnce_rowsAffected _ _ _ n (h ▸ h1)
  | error e =>
    simp only [h1] at h ⊢
    by_cases hc : isColumnErr e
    · simp only [hc, if_true] at h ⊢
      by_cases hne : (heal_sql_query cat s e != s) = true
      · simp only [hne, if_true] at h ⊢
        cases h2 : attemptOnce db (heal_sql_query cat s e) with
        | ok r =>
          simp only [h2] at h ⊢
          exact @attemptOnce_rowsAffected _ _ _ n (h ▸ h2)
        | error e2 => simp only [h2] at h; exact absurd h (by simp)
      · simp only [hne, if_false] at h; exact absurd h (by simp)
    · simp only [hc, Bool.false_eq_true, if_false] at h; exact absurd h (by simp)

/-- C9: the data-modifying classification is a pure substring test on the
lower-cased statement: whenever the executed statement is classified as DML
(it contains one of the six keywords anywhere, e.g. a SELECT over a column
named `created_at` contains "create"), the outcome is an affected-row count,
never a row set; a row-set outcome only arises for statements containing none
of the keywords, and is capped at 1000 rows. -/
theorem C9_dml_substring_classification :
    (∀ (ρ : Type) (cat : List String) (db : Db ρ) (q : String) (rs : List ρ),
        (execute_sql cat db q).result = ExecResult.rows rs →
          rs.length ≤ 1000 ∧ isDml (execute_sql cat db q).sql_query = false) ∧
    (∀ (ρ : Type) (cat : List String) (db : Db ρ) (q : String) (n : Nat),
        (execute_sql cat db q).result = ExecResult.rowsAffected n →
          isDml (execute_sql cat db q).sql_query = true) ∧
    isDml "SELECT created_at FROM t" = true ∧
    (execute_sql [] dbAllOk "SELECT created_at FROM t").result = ExecResult.rowsAffected 0 := by
  refine ⟨?_, ?_, by decide, by decide⟩
  · intro ρ cat db q rs h
    exact execLoop_rows (by exact h)
  · intro ρ cat db q n h
    exact execLoop_rowsAffected (by exact h)

/-- Witness for C9 at concrete engines: a read statement returns its rows
(within the cap) and is classified non-DML; the `created_at` statement is
classified DML and yields a row count. -/
theorem C9_dml_substring_classification_witness :
    ((execute_sql [] dbOneRow "SELECT x FROM t").result = ExecResult.rows [()]) ∧
    ([()].length ≤ 1000 ∧ isDml (execute_sql [] dbOneRow "SELECT x FROM t").sql_query = false) ∧
    ((execute_sql [] dbAllOk "SELECT created_at FROM t").result = ExecResult.rowsAffected 0 ∧
      isDml (execute_sql [] dbAllOk "SELECT created_at FROM t").sql_query = true) :=
  ⟨by decide,
   C9_dml_substring_classification.1 Unit [] dbOneRow "SELECT x FROM t" [()] (by decide),
   by decide,
   C9_dml_substring_classification.2.1 Unit [] dbAllOk "SELECT created_at FROM t" 0 (by decide)⟩

/-- The healed flag of the retry loop is false iff it started false and the
loop did not rewrite the statement (in which case the reported statement is
the one the loop received). -/
lemma execLoop_healed_iff {ρ : Type} (cat : List String) (db : Db ρ) (s : String) (h0 : Bool) :
    (execLoop cat db s h0).healed = false ↔
      ((execLoop cat db s h0).sql_query = s ∧ h0 = false) := by
  unfold execLoop
  cases h1 : attemptOnce db s with
  | ok r => simp
  | error e =>
    by_cases hc : isColumnErr e
    · simp only [hc, if_true]
      by_cases hne : (heal_sql_query cat s e != s) = true
      · have hne' : heal_sql_query cat s e ≠ s := by simpa using hne
        simp only [hne, if_true]
        cases h2 : attemptOnce db (heal_sql_query cat s e) <;> simp [hne']
      · simp only [hne, if_false]
        simp
    · simp only [hc, Bool.false_eq_true, if_false]
      simp

/-- C4 counterexample: the pre-execution normalization of dotted columns does
alter the statement text of this request, yet the returned healed flag is
false - so "healed" is not equivalent to "some repair step (including the
normalization) altered the statement". -/
theorem C4_counterexample_normalization_not_flagged :
    sanitize_dot_columns "SELECT a.col.1 FROM t a;" ≠ "SELECT a.col.1 FROM t a;" ∧
    (execute_sql [] dbAllOk "SELECT a.col.1 FROM t a;").sql_query ≠ "SELECT a.col.1 FROM t a;" ∧
    (execute_sql [] dbAllOk "SELECT a.col.1 FROM t a;").healed = false := by
  refine ⟨by decide, by decide, by decide⟩

/-- C4 amended: the healed flag is true iff the heuristic patch or the
error-driven healing rewrite altered the statement; equivalently, healed is
false iff the reported statement is exactly the dot-normalized request and
the patcher left that normalized statement unchanged.  The dotted-column
normalization itself never sets the flag. -/
theorem C4_healed_iff_patch_or_heal_changed {ρ : Type} (cat : List String) (db : Db ρ)
    (q : String) :
    (execute_sql cat db q).healed = false ↔
      ((execute_sql cat db q).sql_query = sanitize_dot_columns q ∧
        patch_broken_sql (sanitize_dot_columns q) = sanitize_dot_columns q) := by
  unfold execute_sql
  by_cases hp : patch_broken_sql (sanitize_dot_columns q) = sanitize_dot_columns q
  · have hb : (patch_broken_sql (sanitize_dot_columns q) != sanitize_dot_columns q) = false := by
      simp [hp]
    simp only [hb, Bool.false_eq_true, if_false]
    rw [execLoop_healed_iff]
    simp [hp]
  · have hb : (patch_broken_sql (sanitize_dot_columns q) != sanitize_dot_columns q) = true := by
      simp [hp]
    simp only [hb, if_true]
    rw [execLoop_healed_iff]
    simp [hp]

/-! ### Claim C8 -/

/-- The FIX 1 loop leaves a statement unchanged when none of the table's bad
substrings occur in it. -/
lemma patch_fold_id : ∀ (l : List (String × String)) (s : String),
    (∀ p ∈ l, containsSub s p.1 = false) →
    l.foldl (fun acc bg => if containsSub acc bg.1 then pyReplace acc bg.1 bg.2 else acc) s
      = s := by
  intro l
  induction l with
  | nil => intro s _; rfl
  | cons p l ih =>
    intro s h
    have hp : containsSub s p.1 = false := h p (by simp)
    simp only [List.foldl_cons, hp, Bool.false_eq_true, if_false]
    exact ih s (fun p' hp' => h p' (by simp [hp']))

/-- C8: the Heuristic Patcher is the identity on every statement with none of
its trigger patterns (no BIGINT substring, none of the pluralization keys, no
education_stats without religion_stats, no crop_stats, no languages without
language_stats) and on every statement longer than the 2000-character hard
guard, regardless of content. -/
theorem C8_patcher_identity :
    (∀ s : String,
        containsSub s "BIGINT" = false →
        (∀ p ∈ replacementsList, containsSub s p.1 = false) →
        (containsSub s "education_stats" && !containsSub s "religion_stats") = false →
        containsSub s "crop_stats" = false →
        (containsSub s "languages" && !containsSub s "language_stats") = false →
        patch_broken_sql s = s) ∧
    (∀ s : String, 2000 < s.length → patch_broken_sql s = s) := by
  constructor
  · intro s h1 h2 h3 h4 h5
    unfold patch_broken_sql
    by_cases hl : 2000 < s.length
    · simp [hl]
    · simp only [hl, if_false]
      simp only [h1, Bool.false_eq_true, if_false]
      rw [patch_fold_id replacementsList s h2]
      simp only [h3, h4, h5, Bool.false_eq_true, if_false]
  · intro s hl
    unfold patch_broken_sql
    simp [hl]

/-- Witness for C8: a trigger-free statement and an over-long statement, both
passed through unchanged. -/
theorem C8_patcher_identity_witness :
    (containsSub patchIdExample "BIGINT" = false) ∧
    (∀ p ∈ replacementsList, containsSub patchIdExample p.1 = false) ∧
    ((containsSub patchIdExample "education_stats" &&
        !containsSub patchIdExample "religion_stats") = false) ∧
    (containsSub patchIdExample "crop_stats" = false) ∧
    ((containsSub patchIdExample "languages" &&
        !containsSub patchIdExample "language_stats") = false) ∧
    patch_broken_sql patchIdExample = patchIdExample ∧
    2000 < longStatement.length ∧
    patch_broken_sql longStatement = longStatement := by
  have hlen : longStatement.length = 2001 := by
    show (List.replicate 2001 'x').length = 2001
    exact List.length_replicate ..
  have hgt : 2000 < longStatement.length := by rw [hlen]; norm_num
  exact ⟨by decide, by decide, by decide, by decide, by decide,
    C8_patcher_identity.1 patchIdExample (by decide) (by decide) (by decide) (by decide)
      (by decide),
    hgt,
    C8_patcher_identity.2 longStatement hgt⟩

/-! ### Claim C3 -/

/-- The score-pair denominator is positive. -/
lemma scPair_snd_pos (x w : String) : 0 < (scPair x w).2 := by
  unfold scPair
  split
  · norm_num
  · exact Nat.pos_of_ne_zero (by assumption)

/-- The rational score is the value of the score pair. -/
lemma simScore_eq_scPair (x w : String) :
    simScore x w = ((scPair x w).1 : ℚ) / ((scPair x w).2 : ℚ) := by
  unfold simScore scPair
  by_cases h : x.length + w.length = 0
  · simp [h]
  · simp only [h, if_false]
    push_cast
    ring_nf

/-- Cross multiplication decides the strict order of two scores. -/
lemma pairLtB_score_iff (x y w : String) :
    pairLtB (scPair x w) (scPair y w) = true ↔ simScore x w < simScore y w := by
  rw [simScore_eq_scPair, simScore_eq_scPair]
  unfold pairLtB
  rw [decide_eq_true_eq]
  rw [div_lt_div_iff₀ (by exact_mod_cast scPair_snd_pos x w)
    (by exact_mod_cast scPair_snd_pos y w)]
  exact_mod_cast Iff.rfl

/-- Cross multiplication against `(1, 2)` decides the cutoff test. -/
lemma pairLtB_half_iff (x w : String) :
    pairLtB (scPair x w) (1, 2) = true ↔ simScore x w < 1/2 := by
  rw [simScore_eq_scPair]
  unfold pairLtB
  rw [decide_eq_true_eq]
  have h2 : (0:ℚ) < 2 := by norm_num
  rw [div_lt_div_iff₀ (by exact_mod_cast scPair_snd_pos x w) h2]
  exact_mod_cast Iff.rfl

/-- Cross multiplication decides equality of two scores. -/
lemma pairEqB_score_iff (x y w : String) :
    pairEqB (scPair x w) (scPair y w) = true ↔ simScore x w = simScore y w := by
  rw [simScore_eq_scPair, simScore_eq_scPair]
  unfold pairEqB
  rw [decide_eq_true_eq]
  have hx : ((scPair x w).2 : ℚ) ≠ 0 := by
    exact_mod_cast Nat.pos_iff_ne_zero.mp (scPair_snd_pos x w)
  have hy : ((scPair y w).2 : ℚ) ≠ 0 := by
    exact_mod_cast Nat.pos_iff_ne_zero.mp (scPair_snd_pos y w)
  rw [div_eq_div_iff hx hy]
  exact_mod_cast Iff.rfl

/-- If the matcher fold returns a candidate, it came from the accumulator or
from the list with a score at or above the 1/2 floor. -/
lemma gcm_fold_some (w : String) :
    ∀ (l : List String) (acc : Option String) (m : String),
      l.foldl
        (fun best x =>
          if pairLtB (scPair x w) (1, 2) then best
          else
            match best with
            | none => some x
            | some y =>
              if pairLtB (scPair y w) (scPair x w) ∨
                  (pairEqB (scPair y w) (scPair x w) ∧ strLtB y x)
              then some x
              else some y)
        acc = some m →
      acc = some m ∨ (m ∈ l ∧ 1/2 ≤ simScore m w) := by
  intro l
  induction l with
  | nil => intro acc m h; exact Or.inl h
  | cons x l ih =>
    intro acc m h
    rcases ih _ m h with h1 | h1
    · simp only [] at h1
      by_cases hs : pairLtB (scPair x w) (1, 2) = true
      · rw [if_pos hs] at h1
        exact Or.inl h1
      · rw [if_neg hs] at h1
        have hle : 1/2 ≤ simScore x w := by
          have := (not_iff_not.mpr (pairLtB_half_iff x w)).mp hs
          exact le_of_not_lt this
        cases acc with
        | none =>
          simp only at h1
          exact Or.inr ⟨by simp [← Option.some_inj.mp h1], by
            rw [← Option.some_inj.mp h1]; exact hle⟩
        | some y =>
          simp only at h1
          by_cases hcmp : pairLtB (scPair y w) (scPair x w) = true ∨
              (pairEqB (scPair y w) (scPair x w) = true ∧ strLtB y x = true)
          · rw [if_pos hcmp] at h1
            exact Or.inr ⟨by simp [← Option.some_inj.mp h1], by
              rw [← Option.some_inj.mp h1]; exact hle⟩
          · rw [if_neg hcmp] at h1
            exact Or.inl h1
    · exact Or.inr ⟨by simp [h1.1], h1.2⟩

/-- If the matcher fold returns nothing, the accumulator was empty and every
candidate scores below the floor. -/
lemma gcm_fold_none (w : String) :
    ∀ (l : List String) (acc : Option String),
      l.foldl
        (fun best x =>
          if pairLtB (scPair x w) (1, 2) then best
          else
            match best with
            | none => some x
            | some y =>
              if pairLtB (scPair y w) (scPair x w) ∨
                  (pairEqB (scPair y w) (scPair x w) ∧ strLtB y x)
              then some x
              else some y)
        acc = none →
      acc = none ∧ ∀ x ∈ l, simScore x w < 1/2 := by
  intro l
  induction l with
  | nil => intro acc h; exact ⟨h, by simp⟩
  | cons x l ih =>
    intro acc h
    rcases ih _ h with ⟨hstep, hrest⟩
    simp only [] at hstep
    by_cases hs : pairLtB (scPair x w) (1, 2) = true
    · rw [if_pos hs] at hstep
      refine ⟨hstep, ?_⟩
      intro y hy
      rcases List.mem_cons.mp hy with rfl | hy
      · exact (pairLtB_half_iff y w).mp hs
      · exact hrest y hy
    · rw [if_neg hs] at hstep
      cases acc <;> simp only at hstep
      · exact absurd hstep (by simp)
      · split at hstep <;> exact absurd hstep (by simp)

set_option maxRecDepth 8192 in
/-- C3: behaviour of the healer on a "column does not exist" error naming
`c`.  After stripping the table-alias prefix: (a) if the column index holds a
match at or above the similarity floor 1/2, the closest match (largest
`(score, name)`) is substituted for `c` everywhere in the statement (quoted
when it contains a dot); (b) otherwise, if `c` is nonempty and starts with an
upper-case letter or contains a space, the quoted identifier `"c"` becomes
the string literal `'c'`; if neither strategy applies, or no column can be
extracted from the error, the statement is unchanged.  In particular, for
error `column "illiterate_person" does not exist` against a catalogue
containing `illiterate_persons`, the healed statement replaces
`illiterate_person` by `illiterate_persons` and the response has
`healed = true`. -/
theorem C3_healing_strategies :
    (∀ (w : String) (cat : List String) (m : String),
        getCloseMatches1 w cat = some m → m ∈ cat ∧ 1/2 ≤ simScore m w) ∧
    (∀ (w : String) (cat : List String),
        getCloseMatches1 w cat = none → ∀ x ∈ cat, simScore x w < 1/2) ∧
    (∀ (cat : List String) (sql err badCol : String),
        extractBadCol err = some badCol →
          (∀ m, getCloseMatches1 (stripAlias badCol) cat = some m →
            heal_sql_query cat sql err =
              pyReplace sql (stripAlias badCol)
                (if containsSub m "." then "\"" ++ m ++ "\"" else m)) ∧
          (getCloseMatches1 (stripAlias badCol) cat = none →
            (((stripAlias badCol).toList ≠ [] ∧
                (firstIsUpper (stripAlias badCol) ∨ containsSub (stripAlias badCol) " ")) →
              heal_sql_query cat sql err =
                pyReplace sql ("\"" ++ stripAlias badCol ++ "\"")
                  ("'" ++ stripAlias badCol ++ "'")) ∧
            (¬((stripAlias badCol).toList ≠ [] ∧
                (firstIsUpper (stripAlias badCol) ∨ containsSub (stripAlias badCol) " ")) →
              heal_sql_query cat sql err = sql))) ∧
    (∀ (cat : List String) (sql err : String),
        extractBadCol err = none → heal_sql_query cat sql err = sql) ∧
    heal_sql_query exCat exBadSql exErrMsg = exHealedSql ∧
    (execute_sql exCat exDb exBadSql).sql_query = exHealedSql ∧
    (execute_sql exCat exDb exBadSql).healed = true ∧
    (execute_sql exCat exDb exBadSql).status = "success" := by
  refine ⟨?_, ?_, ?_, ?_, by decide, by decide, by decide, by decide⟩
  · intro w cat m h
    rcases gcm_fold_some w cat none m h with h1 | h1
    · exact absurd h1 (by simp)
    · exact h1
  · intro w cat h
    exact (gcm_fold_none w cat none h).2
  · intro cat sql err badCol hext
    unfold heal_sql_query
    simp only [hext]
    constructor
    · intro m hm
      simp only [hm]
    · intro hnone
      simp only [hnone]
      constructor
      · intro hguard
        rw [if_pos hguard]
      · intro hguard
        rw [if_neg hguard]
  · intro cat sql err hext
    unfold heal_sql_query
    simp only [hext]

set_option maxRecDepth 8192 in
/-- Witness for C3 at the spec's example: the matcher finds
`illiterate_persons` above the floor, and the healer performs exactly the
strategy (a) substitution. -/
theorem C3_healing_strategies_witness :
    (getCloseMatches1 "illiterate_person" exCat = some "illiterate_persons") ∧
    ("illiterate_persons" ∈ exCat ∧
      1/2 ≤ simScore "illiterate_persons" "illiterate_person") ∧
    (extractBadCol exErrMsg = some "illiterate_person") ∧
    heal_sql_query exCat exBadSql exErrMsg =
      pyReplace exBadSql (stripAlias "illiterate_person")
        (if containsSub "illiterate_persons" "." then
            "\"" ++ "illiterate_persons" ++ "\""
          else "illiterate_persons") := by
  have h := C3_healing_strategies
  refine ⟨by decide, h.1 "illiterate_person" exCat "illiterate_persons" (by decide), by decide, ?_⟩
  exact (h.2.2.1 exCat exBadSql exErrMsg "illiterate_person" (by decide)).1
    "illiterate_persons" (by decide)

/-! ### Scanner lemmas for `sanitize_dot_columns` (claims C7 and C6) -/

/-- `takeWhile` over a run of satisfying elements. -/
lemma takeWhile_append_all {p : Char → Bool} :
    ∀ {A : List Char}, (∀ a ∈ A, p a = true) →
      ∀ l : List Char, (A ++ l).takeWhile p = A ++ l.takeWhile p := by
  intro A
  induction A with
  | nil => intro _ l; simp
  | cons a A ih =>
    intro h l
    have ha : p a = true := h a (by simp)
    simp only [List.cons_append, List.takeWhile_cons, ha, if_true]
    rw [ih (fun a' ha' => h a' (by simp [ha'])) l]

/-- `dropWhile` over a run of satisfying elements. -/
lemma dropWhile_append_all {p : Char → Bool} :
    ∀ {A : List Char}, (∀ a ∈ A, p a = true) →
      ∀ l : List Char, (A ++ l).dropWhile p = l.dropWhile p := by
  intro A
  induction A with
  | nil => intro _ l; simp
  | cons a A ih =>
    intro h l
    have ha : p a = true := h a (by simp)
    simp only [List.cons_append, List.dropWhile_cons, ha, if_true]
    exact ih (fun a' ha' => h a' (by simp [ha'])) l

/-- A digit is a word character. -/
lemma isWordChar_of_isDigit {c : Char} (h : c.isDigit = true) : isWordChar c = true := by
  unfold isWordChar
  unfold Char.isAlphanum
  simp [h]

/-- The dot is not a word character. -/
lemma isWordChar_dot : isWordChar '.' = false := by decide

/-- The double quote is not a word character. -/
lemma isWordChar_quote : isWordChar '"' = false := by decide

/-- `expectDot` on a leading dot. -/
lemma expectDot_cons_self (r : List Char) : expectDot ('.' :: r) = some r := rfl

/-- `takeWhile` of a word run is empty when the head is not a word character
(or the list is empty). -/
lemma takeWhile_eq_nil_of_headIsWord_false {p : Char → Bool} :
    ∀ {l : List Char}, (match l with | [] => True | c :: _ => p c = false) →
      l.takeWhile p = [] := by
  intro l
  cases l with
  | nil => intro _; rfl
  | cons c cs => intro h; simp only [List.takeWhile_cons, h, Bool.false_eq_true, if_false]

/-- Decomposition produced by a successful `matchAt`. -/
lemma matchAt_decomp {l A W D rest : List Char}
    (h : matchAt l = some (A, W, D, rest)) :
    l = A ++ '.' :: (W ++ '.' :: (D ++ rest)) ∧
    A ≠ [] ∧ (∀ c ∈ A, isWordChar c = true) ∧
    W ≠ [] ∧ (∀ c ∈ W, isWordChar c = true) ∧
    D ≠ [] ∧ (∀ c ∈ D, c.isDigit = true) ∧
    headIsWord rest = false := by
  unfold matchAt at h
  by_cases hA : l.takeWhile isWordChar = []
  · rw [if_pos hA] at h; exact Option.noConfusion h
  · rw [if_neg hA] at h
    cases hd1 : l.dropWhile isWordChar with
    | nil => rw [hd1] at h; simp [expectDot] at h
    | cons c1 r1 =>
      rw [hd1] at h
      by_cases hc1 : c1 = '.'
      · subst hc1
        rw [expectDot_cons_self] at h
        simp only [Option.some_bind] at h
        by_cases hW : r1.takeWhile isWordChar = []
        · rw [if_pos hW] at h; exact Option.noConfusion h
        · rw [if_neg hW] at h
          cases hd2 : r1.dropWhile isWordChar with
          | nil => rw [hd2] at h; simp [expectDot] at h
          | cons c2 r2 =>
            rw [hd2] at h
            by_cases hc2 : c2 = '.'
            · subst hc2
              rw [expectDot_cons_self] at h
              simp only [Option.some_bind] at h
              by_cases hD : r2.takeWhile Char.isDigit = []
              · rw [if_pos hD] at h; exact Option.noConfusion h
              · rw [if_neg hD] at h
                by_cases hrest : headIsWord (r2.dropWhile Char.isDigit) = true
                · rw [if_pos hrest] at h; exact Option.noConfusion h
                · rw [if_neg hrest] at h
                  simp only [Option.some_inj, Prod.mk.injEq] at h
                  obtain ⟨rfl, rfl, rfl, rfl⟩ := h
                  refine ⟨?_, hA, fun c hc => List.mem_takeWhile_imp hc,
                    hW, fun c hc => List.mem_takeWhile_imp hc,
                    hD, fun c hc => List.mem_takeWhile_imp hc,
                    by simpa using hrest⟩
                  conv_lhs => rw [← List.takeWhile_append_dropWhile isWordChar l]
                  rw [hd1]
                  congr 1
                  congr 1
                  conv_lhs => rw [← List.takeWhile_append_dropWhile isWordChar r1]
                  rw [hd2]
                  congr 1
                  congr 1
                  exact (List.takeWhile_append_dropWhile Char.isDigit r2).symm
            · simp only [expectDot, hc2, if_false, Option.none_bind] at h
              exact Option.noConfusion h
      · simp only [expectDot, hc1, if_false, Option.none_bind] at h
        exact Option.noConfusion h

/-- `matchAt` succeeds on every well-shaped window. -/
lemma matchAt_of_shape {A W D rest : List Char}
    (hA : A ≠ []) (hAw : ∀ c ∈ A, isWordChar c = true)
    (hW : W ≠ []) (hWw : ∀ c ∈ W, isWordChar c = true)
    (hD : D ≠ []) (hDd : ∀ c ∈ D, c.isDigit = true)
    (hrest : headIsWord rest = false) :
    matchAt (A ++ '.' :: (W ++ '.' :: (D ++ rest))) = some (A, W, D, rest) := by
  have htA : (A ++ '.' :: (W ++ '.' :: (D ++ rest))).takeWhile isWordChar = A := by
    rw [takeWhile_append_all hAw]
    simp [List.takeWhile_cons, isWordChar_dot]
  have hdA : (A ++ '.' :: (W ++ '.' :: (D ++ rest))).dropWhile isWordChar =
      '.' :: (W ++ '.' :: (D ++ rest)) := by
    rw [dropWhile_append_all hAw]
    simp [List.dropWhile_cons, isWordChar_dot]
  have htW : (W ++ '.' :: (D ++ rest)).takeWhile isWordChar = W := by
    rw [takeWhile_append_all hWw]
    simp [List.takeWhile_cons, isWordChar_dot]
  have hdW : (W ++ '.' :: (D ++ rest)).dropWhile isWordChar = '.' :: (D ++ rest) := by
    rw [dropWhile_append_all hWw]
    simp [List.dropWhile_cons, isWordChar_dot]
  have hrestD : (D ++ rest).takeWhile Char.isDigit = D ∧
      (D ++ rest).dropWhile Char.isDigit = rest := by
    have hres : rest.takeWhile Char.isDigit = [] ∧ rest.dropWhile Char.isDigit = rest := by
      cases rest with
      | nil => exact ⟨rfl, rfl⟩
      | cons c cs =>
        have hcw : isWordChar c = false := by simpa [headIsWord] using hrest
        have hc : c.isDigit = false := by
          by_contra hcd
          have hd : c.isDigit = true := by revert hcd; cases c.isDigit <;> simp
          rw [isWordChar_of_isDigit hd] at hcw
          exact Bool.noConfusion hcw
        constructor
        · simp [List.takeWhile_cons, hc]
        · simp [List.dropWhile_cons, hc]
    exact ⟨by rw [takeWhile_append_all hDd, hres.1, List.append_nil],
      by rw [dropWhile_append_all hDd, hres.2]⟩
  unfold matchAt
  rw [htA, hdA, if_neg hA, expectDot_cons_self]
  simp only [Option.some_bind]
  rw [htW, hdW, if_neg hW, expectDot_cons_self]
  simp only [Option.some_bind]
  rw [hrestD.1, hrestD.2, if_neg hD, if_neg (by simp [hrest])]

/-- The length bound a successful match imposes. -/
lemma matchAt_length {l A W D rest : List Char} (h : matchAt l = some (A, W, D, rest)) :
    rest.length + 4 ≤ l.length := by
  obtain ⟨hdec, hA, -, hW, -, hD, -, -⟩ := matchAt_decomp h
  have hA1 : 1 ≤ A.length := List.length_pos.mpr hA
  have hW1 : 1 ≤ W.length := List.length_pos.mpr hW
  have hD1 : 1 ≤ D.length := List.length_pos.mpr hD
  rw [hdec]
  simp only [List.length_append, List.length_cons]
  omega

/-- Fuel does not matter once it exceeds the remaining length. -/
lemma sanAux_fuel : ∀ (n : Nat) (l : List Char), l.length ≤ n →
    ∀ (f f' : Nat) (b : Bool), l.length < f → l.length < f' →
      sanAux f b l = sanAux f' b l := by
  intro n
  induction n with
  | zero =>
    intro l hl f f' b hf hf'
    have : l = [] := List.length_eq_zero.mp (Nat.le_zero.mp hl)
    subst this
    cases f with
    | zero => omega
    | succ f => cases f' with
      | zero => omega
      | succ f' => rfl
  | succ n ih =>
    intro l hl f f' b hf hf'
    cases l with
    | nil =>
      cases f with
      | zero => omega
      | succ f => cases f' with
        | zero => omega
        | succ f' => rfl
    | cons c cs =>
      cases f with
      | zero => omega
      | succ f =>
        cases f' with
        | zero => omega
        | succ f' =>
          show sanAux (f + 1) b (c :: cs) = sanAux (f' + 1) b (c :: cs)
          unfold sanAux
          cases hm : (if b then none else matchAt (c :: cs)) with
          | none =>
            simp only [hm]
            have h1 : cs.length ≤ n := by simp at hl; omega
            have h2 : cs.length < f := by simp at hf; omega
            have h3 : cs.length < f' := by simp at hf'; omega
            rw [ih cs h1 f f' (isWordChar c) h2 h3]
          | some t =>
            obtain ⟨A, W, D, rest⟩ := t
            simp only [hm]
            have hm' : matchAt (c :: cs) = some (A, W, D, rest) := by
              cases b with
              | true => exact absurd hm (by simp)
              | false => simpa using hm
            have hlen := matchAt_length hm'
            simp only [List.length_cons] at hlen hl hf hf'
            have h1 : rest.length ≤ n := by omega
            have h2 : rest.length < f := by omega
            have h3 : rest.length < f' := by omega
            rw [ih rest h1 f f' true h2 h3]

/-- The scanner on the empty string. -/
lemma sanList_nil (b : Bool) : sanList b [] = [] := rfl

/-- The copy step of the scanner. -/
lemma sanList_copy {b : Bool} {c : Char} {cs : List Char}
    (h : (if b then none else matchAt (c :: cs)) = none) :
    sanList b (c :: cs) = c :: sanList (isWordChar c) cs := by
  unfold sanList
  show sanAux (cs.length + 1 + 1) b (c :: cs) = _
  conv_lhs => unfold sanAux
  simp only [h]

/-- The rewrite step of the scanner. -/
lemma sanList_rewrite {c : Char} {cs A W D rest : List Char}
    (h : matchAt (c :: cs) = some (A, W, D, rest)) :
    sanList false (c :: cs) =
      A ++ '.' :: '"' :: (W ++ '.' :: (D ++ '"' :: sanList true rest)) := by
  unfold sanList
  show sanAux (cs.length + 1 + 1) false (c :: cs) = _
  conv_lhs => unfold sanAux
  simp only [h, Bool.false_eq_true, if_false]
  have hlen := matchAt_length h
  simp only [List.length_cons] at hlen
  rw [sanAux_fuel (cs.length + 1) rest (by omega) (cs.length + 1) (rest.length + 1) true
    (by omega) (by omega)]

/-! ### Claim C7 -/

/-- C7: the dotted-column rewrite turns every reference of the shape
`alias.identifier.digits` (alias and identifier being word runs, the digits
run followed by a non-word character or the end) into
`alias."identifier.digits"`; in particular `SELECT a.col.1 FROM t a;` becomes
`SELECT a."col.1" FROM t a;`. -/
theorem C7_dot_column_rewrite :
    sanitize_dot_columns "SELECT a.col.1 FROM t a;" = "SELECT a.\"col.1\" FROM t a;" ∧
    ∀ (A W D rest : List Char),
      A ≠ [] → (∀ c ∈ A, isWordChar c = true) →
      W ≠ [] → (∀ c ∈ W, isWordChar c = true) →
      D ≠ [] → (∀ c ∈ D, c.isDigit = true) →
      headIsWord rest = false →
      sanList false (A ++ '.' :: (W ++ '.' :: (D ++ rest))) =
        A ++ '.' :: '"' :: (W ++ '.' :: (D ++ '"' :: sanList true rest)) := by
  constructor
  · decide
  · intro A W D rest hA hAw hW hWw hD hDd hrest
    obtain ⟨c, A', rfl⟩ : ∃ c A', A = c :: A' := by
      cases A with
      | nil => exact absurd rfl hA
      | cons c A' => exact ⟨c, A', rfl⟩
    have hm := matchAt_of_shape hA hAw hW hWw hD hDd hrest
    rw [List.cons_append] at hm ⊢
    exact sanList_rewrite hm

/-- Witness for C7's general rewrite at `a.col.1` followed by ` x`. -/
theorem C7_dot_column_rewrite_witness :
    ((['a'] : List Char) ≠ [] ∧ (∀ c ∈ (['a'] : List Char), isWordChar c = true) ∧
      (['c','o','l'] : List Char) ≠ [] ∧
      (∀ c ∈ (['c','o','l'] : List Char), isWordChar c = true) ∧
      (['1'] : List Char) ≠ [] ∧ (∀ c ∈ (['1'] : List Char), c.isDigit = true) ∧
      headIsWord [' ','x'] = false) ∧
    sanList false (['a'] ++ '.' :: (['c','o','l'] ++ '.' :: (['1'] ++ [' ','x']))) =
      ['a'] ++ '.' :: '"' :: (['c','o','l'] ++ '.' :: (['1'] ++ '"' :: sanList true [' ','x'])) :=
  ⟨⟨by decide, by decide, by decide, by decide, by decide, by decide, by decide⟩,
   C7_dot_column_rewrite.2 ['a'] ['c','o','l'] ['1'] [' ','x']
     (by decide) (by decide) (by decide) (by decide) (by decide) (by decide) (by decide)⟩

/-! ### Claim C6: fence-stripping lemmas -/

/-- Unfolding an occurrence test at a cons cell. -/
lemma hasOcc_cons (pat : List Char) (c : Char) (cs : List Char) :
    hasOcc pat (c :: cs) = (pat.isPrefixOf (c :: cs) || hasOcc pat cs) := rfl

/-- Splitting an occurrence test at the head. -/
lemma hasOcc_cons_false {pat : List Char} {c : Char} {cs : List Char}
    (h : hasOcc pat (c :: cs) = false) :
    pat.isPrefixOf (c :: cs) = false ∧ hasOcc pat cs = false := by
  simpa [hasOcc] using h

/-- A prefix extends over an appended tail. -/
lemma isPrefixOf_append_of_isPrefixOf {pat u : List Char} (v : List Char)
    (h : pat.isPrefixOf u = true) : pat.isPrefixOf (u ++ v) = true := by
  rw [List.isPrefixOf_iff_prefix] at h ⊢
  exact h.trans (List.prefix_append u v)

/-- An occurrence in a prefix is an occurrence in the whole. -/
lemma hasOcc_append_of_left {pat : List Char} :
    ∀ {u : List Char} (v : List Char), hasOcc pat u = true → hasOcc pat (u ++ v) = true := by
  intro u
  induction u with
  | nil =>
    intro v h
    simp only [hasOcc] at h
    have : pat = [] := by
      cases pat with
      | nil => rfl
      | cons p ps => simp [List.isPrefixOf] at h
    subst this
    cases v <;> simp [hasOcc, List.isPrefixOf]
  | cons c cs ih =>
    intro v h
    rw [hasOcc_cons] at h
    rcases Bool.or_eq_true_iff.mp h with h1 | h1
    · have := isPrefixOf_append_of_isPrefixOf v h1
      rw [List.cons_append, hasOcc_cons, ← List.cons_append]
      exact Bool.or_eq_true_iff.mpr (Or.inl this)
    · rw [List.cons_append, hasOcc_cons]
      exact Bool.or_eq_true_iff.mpr (Or.inr (ih v h1))

/-- An occurrence in a suffix is an occurrence in the whole. -/
lemma hasOcc_append_of_right {pat : List Char} :
    ∀ (u : List Char) {v : List Char}, hasOcc pat v = true → hasOcc pat (u ++ v) = true := by
  intro u
  induction u with
  | nil => intro v h; simpa using h
  | cons c cs ih =>
    intro v h
    rw [List.cons_append, hasOcc_cons]
    exact Bool.or_eq_true_iff.mpr (Or.inr (ih h))

/-- No occurrence in a concatenation means none in either part. -/
lemma hasOcc_append_false {pat u v : List Char} (h : hasOcc pat (u ++ v) = false) :
    hasOcc pat u = false ∧ hasOcc pat v = false := by
  constructor
  · cases hu : hasOcc pat u with
    | false => rfl
    | true => rw [hasOcc_append_of_left v hu] at h; exact h
  · cases hv : hasOcc pat v with
    | false => rfl
    | true => rw [hasOcc_append_of_right u hv] at h; exact h

/-- `replFuel` is the identity when the pattern does not occur. -/
lemma replFuel_id {pat rep : List Char} :
    ∀ (l : List Char) (f : Nat), hasOcc pat l = false → replFuel pat rep f l = l := by
  intro l
  induction l with
  | nil => intro f _; cases f <;> rfl
  | cons c cs ih =>
    intro f h
    obtain ⟨h1, h2⟩ := hasOcc_cons_false h
    cases f with
    | zero => rfl
    | succ f =>
      unfold replFuel
      rw [h1]
      simp only [Bool.false_eq_true, if_false]
      rw [ih f h2]

/-- `pyReplace` is the identity when the pattern does not occur. -/
lemma pyReplace_id {s pat rep : String} (hne : pat.toList ≠ [])
    (h : hasOcc pat.toList s.toList = false) : pyReplace s pat rep = s := by
  unfold pyReplace
  rw [if_neg hne, replFuel_id s.toList _ h]
  rfl

/-- An occurrence of a longer pattern contains an occurrence of its prefix. -/
lemma hasOcc_of_hasOcc_append {p q : List Char} :
    ∀ (l : List Char), hasOcc (p ++ q) l = true → hasOcc p l = true := by
  intro l
  induction l with
  | nil =>
    intro h
    simp only [hasOcc] at h ⊢
    rw [List.isPrefixOf_iff_prefix] at h ⊢
    exact (List.prefix_append p q).trans h
  | cons c cs ih =>
    intro h
    rw [hasOcc_cons] at h
    rcases Bool.or_eq_true_iff.mp h with h1 | h1
    · rw [hasOcc_cons]
      refine Bool.or_eq_true_iff.mpr (Or.inl ?_)
      rw [List.isPrefixOf_iff_prefix] at h1 ⊢
      exact (List.prefix_append p q).trans h1
    · rw [hasOcc_cons]
      exact Bool.or_eq_true_iff.mpr (Or.inr (ih h1))

/-- `replFuel` on the empty list. -/
lemma replFuel_nil (pat rep : List Char) (f : Nat) : replFuel pat rep f [] = [] := by
  cases f <;> rfl

/-- The copy step of `replFuel`. -/
lemma replFuel_copy {pat : List Char} (rep : List Char) {d : Char} {t : List Char} (f : Nat)
    (hp : pat.isPrefixOf (d :: t) = false) :
    replFuel pat rep (f + 1) (d :: t) = d :: replFuel pat rep f t := by
  conv_lhs => unfold replFuel
  rw [hp]
  simp

/-- Appending a non-backtick character cannot create a fence marker. -/
lemma tripleFree_append_single :
    ∀ {t : List Char} {x : Char}, hasOcc tripleTick t = false → x ≠ '`' →
      hasOcc tripleTick (t ++ [x]) = false := by
  intro t
  induction t with
  | nil =>
    intro x h hx
    simp [hasOcc, tripleTick, List.isPrefixOf, List.isPrefixOf_cons₂]
  | cons c t' ih =>
    intro x h hx
    obtain ⟨h1, h2⟩ := hasOcc_cons_false h
    rw [List.cons_append, hasOcc_cons]
    refine Bool.or_eq_false_iff.mpr ⟨?_, ih h2 hx⟩
    by_cases hc : c = '`'
    · subst hc
      simp only [tripleTick, List.isPrefixOf_cons₂, beq_self_eq_true, Bool.true_and]
      cases t' with
      | nil => simp [List.isPrefixOf, List.isPrefixOf_cons₂, beq_iff_eq, hx, Ne.symm hx]
      | cons d t'' =>
        by_cases hd : d = '`'
        · subst hd
          simp only [List.cons_append, List.isPrefixOf_cons₂, beq_self_eq_true, Bool.true_and]
          cases t'' with
          | nil => simp [List.isPrefixOf, List.isPrefixOf_cons₂, beq_iff_eq, hx, Ne.symm hx]
          | cons e t''' =>
            by_cases he : e = '`'
            · subst he
              exact absurd h1 (by simp [tripleTick, List.isPrefixOf_cons₂])
            · simp [List.isPrefixOf_cons₂, beq_iff_eq, he, Ne.symm he]
        · simp [List.isPrefixOf_cons₂, beq_iff_eq, hd, Ne.symm hd]
    · simp [tripleTick, List.isPrefixOf_cons₂, beq_iff_eq, hc, Ne.symm hc]

/-- Unfolding the fence-marker prefix test one backtick at a time. -/
lemma trip_prefix_cons (X : List Char) :
    tripleTick.isPrefixOf ('`' :: X) = (['`', '`'] : List Char).isPrefixOf X := by
  simp [tripleTick, List.isPrefixOf_cons₂]

/-- Unfolding the two-backtick prefix test. -/
lemma two_prefix_cons (X : List Char) :
    (['`', '`'] : List Char).isPrefixOf ('`' :: X) = (['`'] : List Char).isPrefixOf X := by
  simp [List.isPrefixOf_cons₂]

/-- The one-backtick prefix test succeeds on a backtick head. -/
lemma one_prefix_cons_self (X : List Char) :
    (['`'] : List Char).isPrefixOf ('`' :: X) = true := by
  simp [List.isPrefixOf_cons₂, List.isPrefixOf]

/-- Prefix tests fail on a non-backtick head. -/
lemma one_prefix_false {e : Char} (X : List Char) (he : e ≠ '`') :
    (['`'] : List Char).isPrefixOf (e :: X) = false := by
  simp [List.isPrefixOf_cons₂, List.isPrefixOf, beq_iff_eq, Ne.symm he]

/-- Prefix tests fail on a non-backtick head (two backticks). -/
lemma two_prefix_false {e : Char} (X : List Char) (he : e ≠ '`') :
    (['`', '`'] : List Char).isPrefixOf (e :: X) = false := by
  simp [List.isPrefixOf_cons₂, beq_iff_eq, Ne.symm he]

/-- Prefix tests fail on a non-backtick head (the full marker). -/
lemma trip_prefix_false {e : Char} (X : List Char) (he : e ≠ '`') :
    tripleTick.isPrefixOf (e :: X) = false := by
  simp [tripleTick, List.isPrefixOf_cons₂, beq_iff_eq, Ne.symm he]

/-- Removing every fence marker leaves a string with no fence marker: a gap
between consecutive removals can never end in a backtick (leftmost-match
scanning would have started the match earlier), so no marker can span the
joins. -/
lemma replTriple_tripleFree :
    ∀ (f : Nat) (l : List Char), l.length ≤ f →
      hasOcc tripleTick (replFuel tripleTick [] f l) = false := by
  intro f
  induction f with
  | zero =>
    intro l hl
    have : l = [] := List.length_eq_zero.mp (Nat.le_zero.mp hl)
    subst this
    simp [replFuel_nil, hasOcc, tripleTick, List.isPrefixOf]
  | succ f ih =>
    intro l hl
    cases l with
    | nil => simp [replFuel_nil, hasOcc, tripleTick, List.isPrefixOf]
    | cons c cs =>
      cases hp : tripleTick.isPrefixOf (c :: cs) with
      | true =>
        have hstep : replFuel tripleTick [] (f + 1) (c :: cs) =
            replFuel tripleTick [] f ((c :: cs).drop tripleTick.length) := by
          conv_lhs => unfold replFuel
          rw [hp]
          simp
        rw [hstep]
        refine ih _ ?_
        simp only [List.length_cons] at hl
        simp only [List.length_drop, List.length_cons, tripleTick]
        omega
      | false =>
        rw [replFuel_copy [] f hp]
        simp only [List.length_cons] at hl
        have hR := ih cs (by omega)
        rw [hasOcc_cons]
        refine Bool.or_eq_false_iff.mpr ⟨?_, hR⟩
        by_cases hc : c = '`'
        · subst hc
          rw [trip_prefix_cons]
          have h2 : (['`', '`'] : List Char).isPrefixOf cs = false := by
            cases h' : (['`', '`'] : List Char).isPrefixOf cs with
            | false => rfl
            | true => exact absurd hp (by rw [trip_prefix_cons, h']; simp)
          cases cs with
          | nil => simp [replFuel_nil, List.isPrefixOf]
          | cons d cs' =>
            by_cases hd : d = '`'
            · subst hd
              have h1cs' : (['`'] : List Char).isPrefixOf cs' = false := by
                cases h' : (['`'] : List Char).isPrefixOf cs' with
                | false => rfl
                | true => exact absurd h2 (by rw [two_prefix_cons, h']; simp)
              have hps : tripleTick.isPrefixOf ('`' :: cs') = false := by
                rw [trip_prefix_cons]
                cases cs' with
                | nil => simp [List.isPrefixOf]
                | cons e cs'' =>
                  by_cases he : e = '`'
                  · subst he
                    rw [one_prefix_cons_self] at h1cs'
                    exact Bool.noConfusion h1cs'
                  · exact two_prefix_false cs'' he
              cases f with
              | zero => simp only [List.length_cons] at hl; omega
              | succ f' =>
                rw [replFuel_copy [] f' hps, two_prefix_cons]
                cases cs' with
                | nil => simp [replFuel_nil, List.isPrefixOf]
                | cons e cs'' =>
                  have he : e ≠ '`' := by
                    intro he
                    subst he
                    rw [one_prefix_cons_self] at h1cs'
                    exact Bool.noConfusion h1cs'
                  have hpe : tripleTick.isPrefixOf (e :: cs'') = false :=
                    trip_prefix_false _ he
                  cases f' with
                  | zero => simp only [List.length_cons] at hl; omega
                  | succ f'' =>
                    rw [replFuel_copy [] f'' hpe]
                    exact one_prefix_false _ he
            · have hpd : tripleTick.isPrefixOf (d :: cs') = false :=
                trip_prefix_false cs' hd
              cases f with
              | zero => simp only [List.length_cons] at hl; omega
              | succ f' =>
                rw [replFuel_copy [] f' hpd]
                exact two_prefix_false _ hd
        · exact trip_prefix_false _ hc

/-! ### Scanner preservation lemmas -/

/-- No match can start at a non-word character (or at the end). -/
lemma matchAt_headNotWord {l : List Char} (h : headIsWord l = false) : matchAt l = none := by
  have ht : l.takeWhile isWordChar = [] := by
    cases l with
    | nil => rfl
    | cons c cs =>
      simp only [headIsWord] at h
      simp [List.takeWhile_cons, h]
  unfold matchAt
  rw [if_pos ht]

/-- The boundary flag is irrelevant when the head is not a word character. -/
lemma sanList_flag {l : List Char} (h : headIsWord l = false) (b b' : Bool) :
    sanList b l = sanList b' l := by
  cases l with
  | nil => rfl
  | cons c cs =>
    have hm : matchAt (c :: cs) = none := matchAt_headNotWord h
    have e1 : sanList b (c :: cs) = c :: sanList (isWordChar c) cs :=
      sanList_copy (by cases b <;> simp [hm])
    have e2 : sanList b' (c :: cs) = c :: sanList (isWordChar c) cs :=
      sanList_copy (by cases b' <;> simp [hm])
    rw [e1, e2]

/-- The scanner preserves the first character. -/
lemma sanList_head (b : Bool) (l : List Char) : (sanList b l).head? = l.head? := by
  cases l with
  | nil => rfl
  | cons c cs =>
    cases hm : (if b then none else matchAt (c :: cs)) with
    | none => rw [sanList_copy hm]; rfl
    | some t =>
      obtain ⟨A, W, D, rest⟩ := t
      have hb : b = false := by
        cases b with
        | true => simp at hm
        | false => rfl
      subst hb
      have hm' : matchAt (c :: cs) = some (A, W, D, rest) := by simpa using hm
      rw [sanList_rewrite hm']
      obtain ⟨hdec, hA, -⟩ := matchAt_decomp hm'
      cases A with
      | nil => exact absurd rfl hA
      | cons a A' =>
        have : a = c := by
          have := hdec
          simp only [List.cons_append] at this
          exact (List.cons.injEq .. ▸ this : _ ∧ _).1.symm
        subst this
        rfl

/-- A nonempty input gives a nonempty output. -/
lemma sanList_ne_nil {b : Bool} {l : List Char} (h : l ≠ []) : sanList b l ≠ [] := by
  intro hnil
  have := sanList_head b l
  rw [hnil] at this
  cases l with
  | nil => exact h rfl
  | cons c cs => simp at this

/-- Every character of the scanner output is a character of the input or a
double quote. -/
lemma sanList_chars :
    ∀ (n : Nat) (l : List Char), l.length ≤ n → ∀ (b : Bool) (x : Char),
      x ∈ sanList b l → x ∈ l ∨ x = '"' := by
  intro n
  induction n with
  | zero =>
    intro l hl b x hx
    have : l = [] := List.length_eq_zero.mp (Nat.le_zero.mp hl)
    subst this
    simp [sanList_nil] at hx
  | succ n ih =>
    intro l hl b x hx
    cases l with
    | nil => simp [sanList_nil] at hx
    | cons c cs =>
      cases hm : (if b then none else matchAt (c :: cs)) with
      | none =>
        rw [sanList_copy hm] at hx
        rcases List.mem_cons.mp hx with rfl | hx
        · exact Or.inl (by simp)
        · simp only [List.length_cons] at hl
          rcases ih cs (by omega) (isWordChar c) x hx with h1 | h1
          · exact Or.inl (by simp [h1])
          · exact Or.inr h1
      | some t =>
        obtain ⟨A, W, D, rest⟩ := t
        have hb : b = false := by
          cases b with
          | true => simp at hm
          | false => rfl
        subst hb
        have hm' : matchAt (c :: cs) = some (A, W, D, rest) := by simpa using hm
        rw [sanList_rewrite hm'] at hx
        obtain ⟨hdec, -⟩ := matchAt_decomp hm'
        have hlen := matchAt_length hm'
        simp only [List.length_cons] at hl hlen
        simp only [List.mem_append, List.mem_cons] at hx
        rcases hx with hx | hx | hx | hx | hx | hx | hx | hx
        · exact Or.inl (by rw [hdec]; simp [hx])
        · exact Or.inl (by rw [hdec]; simp [hx])
        · exact Or.inr hx
        · exact Or.inl (by rw [hdec]; simp [hx])
        · exact Or.inl (by rw [hdec]; simp [hx])
        · exact Or.inl (by rw [hdec]; simp [hx])
        · exact Or.inr hx
        · rcases ih rest (by omega) true x hx with h1 | h1
          · exact Or.inl (by rw [hdec]; simp [h1])
          · exact Or.inr h1

/-- The scanner preserves the last character, or ends with an inserted quote. -/
lemma sanList_getLast :
    ∀ (n : Nat) (l : List Char), l.length ≤ n → ∀ b : Bool, l ≠ [] →
      (sanList b l).getLast? = l.getLast? ∨ (sanList b l).getLast? = some '"' := by
  intro n
  induction n with
  | zero =>
    intro l hl b hne
    exact absurd (List.length_eq_zero.mp (Nat.le_zero.mp hl)) hne
  | succ n ih =>
    intro l hl b hne
    cases l with
    | nil => exact absurd rfl hne
    | cons c cs =>
      simp only [List.length_cons] at hl
      cases hm : (if b then none else matchAt (c :: cs)) with
      | none =>
        rw [sanList_copy hm]
        cases hcs : cs with
        | nil => left; simp [sanList_nil]
        | cons d cs' =>
          rw [← hcs]
          have hne2 : cs ≠ [] := by rw [hcs]; simp
          obtain ⟨y, ys, hy⟩ : ∃ y ys, sanList (isWordChar c) cs = y :: ys := by
            cases hsl : sanList (isWordChar c) cs with
            | nil => exact absurd hsl (sanList_ne_nil hne2)
            | cons y ys => exact ⟨y, ys, rfl⟩
          have h1 : (c :: sanList (isWordChar c) cs).getLast?
              = (sanList (isWordChar c) cs).getLast? := by
            rw [hy]
            exact List.getLast?_cons_cons
          have h2 : (c :: cs).getLast? = cs.getLast? := by
            rw [hcs]
            exact List.getLast?_cons_cons
          rw [h1, h2]
          exact ih cs (by omega) (isWordChar c) hne2
      | some t =>
        obtain ⟨A, W, D, rest⟩ := t
        have hb : b = false := by
          cases b with
          | true => simp at hm
          | false => rfl
        subst hb
        have hm' : matchAt (c :: cs) = some (A, W, D, rest) := by simpa using hm
        rw [sanList_rewrite hm']
        obtain ⟨hdec, -⟩ := matchAt_decomp hm'
        have hlen := matchAt_length hm'
        simp only [List.length_cons] at hlen
        cases hrest : rest with
        | nil =>
          right
          subst hrest
          rw [show A ++ '.' :: '"' :: (W ++ '.' :: (D ++ '"' :: sanList true [])) =
            (A ++ '.' :: '"' :: (W ++ '.' :: D)) ++ ['"'] by simp [sanList_nil]]
          exact List.getLast?_concat _
        | cons r rs =>
          have hner : rest ≠ [] := by simp [hrest]
          have hsne : sanList true rest ≠ [] := sanList_ne_nil hner
          rw [← hrest]
          have heq : (A ++ '.' :: '"' :: (W ++ '.' :: (D ++ '"' :: sanList true rest))).getLast?
              = (sanList true rest).getLast? := by
            rw [show A ++ '.' :: '"' :: (W ++ '.' :: (D ++ '"' :: sanList true rest)) =
              (A ++ '.' :: '"' :: (W ++ '.' :: (D ++ ['"']))) ++ sanList true rest by simp]
            exact List.getLast?_append_of_ne_nil _ hsne
          rw [heq]
          have hltail : (c :: cs).getLast? = rest.getLast? := by
            rw [hdec, show A ++ '.' :: (W ++ '.' :: (D ++ rest)) =
              (A ++ '.' :: (W ++ '.' :: D)) ++ rest by simp]
            exact List.getLast?_append_of_ne_nil _ hner
          rw [hltail]
          exact ih rest (by omega) true hner

/-- An occurrence of the fence marker in a concatenation whose left part has
no backtick lies in the right part. -/
lemma hasOcc_trip_right :
    ∀ {X : List Char}, (∀ x ∈ X, x ≠ '`') → ∀ {R : List Char},
      hasOcc tripleTick (X ++ R) = true → hasOcc tripleTick R = true := by
  intro X
  induction X with
  | nil => intro _ R h; simpa using h
  | cons x X' ih =>
    intro hX R h
    rw [List.cons_append, hasOcc_cons] at h
    rcases Bool.or_eq_true_iff.mp h with h1 | h1
    · rw [trip_prefix_false _ (hX x (by simp))] at h1
      exact Bool.noConfusion h1
    · exact ih (fun y hy => hX y (by simp [hy])) h1

/-- A word character is not a backtick. -/
lemma ne_tick_of_isWordChar {x : Char} (h : isWordChar x = true) : x ≠ '`' := by
  intro hx
  subst hx
  exact Bool.noConfusion ((isWordChar_quote ▸ rfl : isWordChar '`' = false) ▸ h)

/-- The scanner cannot create a fence marker. -/
lemma sanList_noTriple :
    ∀ (n : Nat) (l : List Char), l.length ≤ n → ∀ b : Bool,
      hasOcc tripleTick l = false → hasOcc tripleTick (sanList b l) = false := by
  intro n
  induction n with
  | zero =>
    intro l hl b h
    have : l = [] := List.length_eq_zero.mp (Nat.le_zero.mp hl)
    subst this
    simpa [sanList_nil] using h
  | succ n ih =>
    intro l hl b h
    cases l with
    | nil => simpa [sanList_nil] using h
    | cons c cs =>
      simp only [List.length_cons] at hl
      obtain ⟨hpre, hcs⟩ := hasOcc_cons_false h
      cases hm : (if b then none else matchAt (c :: cs)) with
      | none =>
        rw [sanList_copy hm, hasOcc_cons]
        refine Bool.or_eq_false_iff.mpr ⟨?_, ih cs (by omega) _ hcs⟩
        by_cases hc : c = '`'
        · subst hc
          rw [trip_prefix_cons]
          cases hcs0 : cs with
          | nil => simp [sanList_nil, List.isPrefixOf]
          | cons d cs' =>
            by_cases hd : d = '`'
            · subst hd
              subst hcs0
              have hmd : matchAt ('`' :: cs') = none :=
                matchAt_headNotWord (by simp [headIsWord, isWordChar_quote]; decide)
              rw [sanList_copy (by simp [hmd])]
              rw [two_prefix_cons]
              cases hcs' : cs' with
              | nil => simp [sanList_nil, List.isPrefixOf]
              | cons e cs'' =>
                rw [← hcs']
                have he : e ≠ '`' := by
                  intro he
                  subst he
                  subst hcs'
                  exact absurd hpre (by simp [tripleTick, List.isPrefixOf_cons₂])
                have : (sanList (isWordChar '`') cs').head? = some e := by
                  rw [sanList_head, hcs']
                  rfl
                obtain ⟨ys, hy⟩ : ∃ ys, sanList (isWordChar '`') cs' = e :: ys := by
                  cases hsl : sanList (isWordChar '`') cs' with
                  | nil => rw [hsl] at this; exact Option.noConfusion this
                  | cons y ys =>
                    rw [hsl] at this
                    exact ⟨ys, by rw [show y = e from (Option.some_inj.mp this)]⟩
                rw [hy]
                exact one_prefix_false _ he
            · rw [← hcs0]
              have hhd : (sanList (isWordChar '`') cs).head? = some d := by
                rw [sanList_head, hcs0]
                rfl
              obtain ⟨ys, hy⟩ : ∃ ys, sanList (isWordChar '`') cs = d :: ys := by
                cases hsl : sanList (isWordChar '`') cs with
                | nil => rw [hsl] at hhd; exact Option.noConfusion hhd
                | cons y ys =>
                  rw [hsl] at hhd
                  exact ⟨ys, by rw [show y = d from (Option.some_inj.mp hhd)]⟩
              rw [hy]
              exact two_prefix_false _ hd
        · exact trip_prefix_false _ hc
      | some t =>
        obtain ⟨A, W, D, rest⟩ := t
        have hb : b = false := by
          cases b with
          | true => simp at hm
          | false => rfl
        subst hb
        have hm' : matchAt (c :: cs) = some (A, W, D, rest) := by simpa using hm
        rw [sanList_rewrite hm']
        obtain ⟨hdec, -, hAw, -, hWw, -, hDd, -⟩ := matchAt_decomp hm'
        have hlen := matchAt_length hm'
        simp only [List.length_cons] at hlen
        have hrest : hasOcc tripleTick rest = false := by
          have : hasOcc tripleTick (c :: cs) = false := h
          rw [hdec] at this
          have h1 := (hasOcc_append_false this).2
          have h2 := (hasOcc_cons_false h1).2
          have h3 := (hasOcc_append_false h2).2
          have h4 := (hasOcc_cons_false h3).2
          exact (hasOcc_append_false h4).2
        have hR := ih rest (by omega) true hrest
        cases hocc : hasOcc tripleTick
            (A ++ '.' :: '"' :: (W ++ '.' :: (D ++ '"' :: sanList true rest))) with
        | false => rfl
        | true =>
          have hX : ∀ x ∈ A ++ '.' :: '"' :: (W ++ '.' :: (D ++ ['"'])), x ≠ '`' := by
            intro x hx
            simp only [List.mem_append, List.mem_cons, List.mem_singleton] at hx
            rcases hx with hx | hx | hx | hx | hx | hx | hx
            · exact ne_tick_of_isWordChar (hAw x hx)
            · subst hx; decide
            · subst hx; decide
            · exact ne_tick_of_isWordChar (hWw x hx)
            · subst hx; decide
            · exact ne_tick_of_isWordChar (isWordChar_of_isDigit (hDd x hx))
            · rcases hx with hx | hx
              · subst hx; decide
              · simp at hx
          have : hasOcc tripleTick (sanList true rest) = true := by
            refine hasOcc_trip_right hX ?_
            rw [show (A ++ '.' :: '"' :: (W ++ '.' :: (D ++ ['"']))) ++ sanList true rest =
              A ++ '.' :: '"' :: (W ++ '.' :: (D ++ '"' :: sanList true rest)) by simp]
            exact hocc
          rw [this] at hR
          exact hR

/-- First-divergence characterization: the scanner either copies the input
verbatim or first diverges by inserting a quote right after a dot. -/
lemma sanList_div :
    ∀ (n : Nat) (l : List Char), l.length ≤ n → ∀ b : Bool,
      sanList b l = l ∨
      ∃ p tl tl', l = p ++ tl ∧ sanList b l = p ++ '"' :: tl' ∧ p.getLast? = some '.' := by
  intro n
  induction n with
  | zero =>
    intro l hl b
    have : l = [] := List.length_eq_zero.mp (Nat.le_zero.mp hl)
    subst this
    exact Or.inl (sanList_nil b)
  | succ n ih =>
    intro l hl b
    cases l with
    | nil => exact Or.inl (sanList_nil b)
    | cons c cs =>
      simp only [List.length_cons] at hl
      cases hm : (if b then none else matchAt (c :: cs)) with
      | none =>
        rw [sanList_copy hm]
        rcases ih cs (by omega) (isWordChar c) with h1 | ⟨p, tl, tl', hdec, hout, hp⟩
        · exact Or.inl (by rw [h1])
        · refine Or.inr ⟨c :: p, tl, tl', by rw [hdec]; rfl, by rw [hout]; rfl, ?_⟩
          have hpne : p ≠ [] := by
            intro h0
            rw [h0] at hp
            exact Option.noConfusion hp
          rw [show c :: p = [c] ++ p by rfl, List.getLast?_append_of_ne_nil _ hpne]
          exact hp
      | some t =>
        obtain ⟨A, W, D, rest⟩ := t
        have hb : b = false := by
          cases b with
          | true => simp at hm
          | false => rfl
        subst hb
        have hm' : matchAt (c :: cs) = some (A, W, D, rest) := by simpa using hm
        rw [sanList_rewrite hm']
        obtain ⟨hdec, -⟩ := matchAt_decomp hm'
        refine Or.inr ⟨A ++ ['.'], W ++ '.' :: (D ++ rest),
          W ++ '.' :: (D ++ '"' :: sanList true rest), ?_, by simp, List.getLast?_concat _⟩
        rw [hdec]
        simp

/-- With the boundary flag set, the scanner copies a word run. -/
lemma san_true_word :
    ∀ (A : List Char), (∀ a ∈ A, isWordChar a = true) →
      ∀ t : List Char, sanList true (A ++ t) = A ++ sanList true t := by
  intro A
  induction A with
  | nil => intro _ t; rfl
  | cons a A' ih =>
    intro h t
    have ha : isWordChar a = true := h a (by simp)
    rw [List.cons_append, sanList_copy (by simp), ha,
      ih (fun x hx => h x (by simp [hx])) t]
    rfl

/-- The copy step with the flag set, as an unconditional equation. -/
lemma san_true_cons (c : Char) (X : List Char) :
    sanList true (c :: X) = c :: sanList (isWordChar c) X :=
  sanList_copy (by simp)

/-- The copy step at a non-word character with the flag clear. -/
lemma san_false_cons_notword {c : Char} (hc : isWordChar c = false) (X : List Char) :
    sanList false (c :: X) = c :: sanList false X := by
  have hm : matchAt (c :: X) = none := matchAt_headNotWord (by simpa [headIsWord] using hc)
  rw [sanList_copy (by simpa using hm), hc]

/-- Against a failing window, the scanner copies a word run and continues with
the flag set. -/
lemma san_word_copy {A : List Char} (hne : A ≠ []) (hw : ∀ a ∈ A, isWordChar a = true)
    {t : List Char} (hm : matchAt (A ++ t) = none) :
    sanList false (A ++ t) = A ++ sanList true t := by
  cases A with
  | nil => exact absurd rfl hne
  | cons a A' =>
    have ha : isWordChar a = true := hw a (by simp)
    rw [List.cons_append, sanList_copy (by simpa using hm), ha,
      san_true_word A' (fun x hx => hw x (by simp [hx])) t]
    rfl

/-- `expectDot` fails on a quote. -/
lemma expectDot_quote (r : List Char) : expectDot ('"' :: r) = none := by
  show (if ('"' : Char) = '.' then some r else none) = none
  rw [if_neg (by decide)]

/-- No window matches when a quote follows the alias dot. -/
lemma matchAt_quote_after_dot {A : List Char} (hA : A ≠ [])
    (hAw : ∀ c ∈ A, isWordChar c = true) (Z : List Char) :
    matchAt (A ++ '.' :: '"' :: Z) = none := by
  have ht : (A ++ '.' :: '"' :: Z).takeWhile isWordChar = A := by
    rw [takeWhile_append_all hAw]
    simp [List.takeWhile_cons, isWordChar_dot]
  have hd : (A ++ '.' :: '"' :: Z).dropWhile isWordChar = '.' :: '"' :: Z := by
    rw [dropWhile_append_all hAw]
    simp [List.dropWhile_cons, isWordChar_dot]
  unfold matchAt
  rw [ht, hd, if_neg hA, expectDot_cons_self]
  simp only [Option.some_bind]
  rw [if_pos (by simp [List.takeWhile_cons, isWordChar_quote])]

/-- No window matches when a quote interrupts before the second dot. -/
lemma matchAt_no_second_dot {W D : List Char} (hW : W ≠ [])
    (hWw : ∀ c ∈ W, isWordChar c = true) (hD : D ≠ [])
    (hDd : ∀ c ∈ D, c.isDigit = true) (S : List Char) :
    matchAt (W ++ '.' :: (D ++ '"' :: S)) = none := by
  have hDw : ∀ c ∈ D, isWordChar c = true := fun c hc => isWordChar_of_isDigit (hDd c hc)
  have ht : (W ++ '.' :: (D ++ '"' :: S)).takeWhile isWordChar = W := by
    rw [takeWhile_append_all hWw]
    simp [List.takeWhile_cons, isWordChar_dot]
  have hd : (W ++ '.' :: (D ++ '"' :: S)).dropWhile isWordChar = '.' :: (D ++ '"' :: S) := by
    rw [dropWhile_append_all hWw]
    simp [List.dropWhile_cons, isWordChar_dot]
  have ht2 : (D ++ '"' :: S).takeWhile isWordChar = D := by
    rw [takeWhile_append_all hDw]
    simp [List.takeWhile_cons, isWordChar_quote]
  have hd2 : (D ++ '"' :: S).dropWhile isWordChar = '"' :: S := by
    rw [dropWhile_append_all hDw]
    simp [List.dropWhile_cons, isWordChar_quote]
  unfold matchAt
  rw [ht, hd, if_neg hW, expectDot_cons_self]
  simp only [Option.some_bind]
  rw [ht2, hd2, if_neg hD, expectDot_quote]
  rfl

/-- No window matches a digit run followed by a quote. -/
lemma matchAt_digit_quote {D : List Char} (hD : D ≠ [])
    (hDw : ∀ c ∈ D, isWordChar c = true) (S : List Char) :
    matchAt (D ++ '"' :: S) = none := by
  have ht : (D ++ '"' :: S).takeWhile isWordChar = D := by
    rw [takeWhile_append_all hDw]
    simp [List.takeWhile_cons, isWordChar_quote]
  have hd : (D ++ '"' :: S).dropWhile isWordChar = '"' :: S := by
    rw [dropWhile_append_all hDw]
    simp [List.dropWhile_cons, isWordChar_quote]
  unfold matchAt
  rw [ht, hd, if_neg hD, expectDot_quote]
  rfl

/-- The scanner walks through an already-rewritten window without touching it. -/
lemma san_walk {A W D : List Char} (hA : A ≠ []) (hAw : ∀ c ∈ A, isWordChar c = true)
    (hW : W ≠ []) (hWw : ∀ c ∈ W, isWordChar c = true)
    (hD : D ≠ []) (hDd : ∀ c ∈ D, c.isDigit = true) (S : List Char) :
    sanList false (A ++ '.' :: '"' :: (W ++ '.' :: (D ++ '"' :: S))) =
      A ++ '.' :: '"' :: (W ++ '.' :: (D ++ '"' :: sanList false S)) := by
  have hDw : ∀ c ∈ D, isWordChar c = true := fun c hc => isWordChar_of_isDigit (hDd c hc)
  rw [san_word_copy hA hAw (matchAt_quote_after_dot hA hAw _),
    san_true_cons, isWordChar_dot,
    san_false_cons_notword isWordChar_quote,
    san_word_copy hW hWw (matchAt_no_second_dot hW hWw hD hDd S),
    san_true_cons, isWordChar_dot,
    san_word_copy hD hDw (matchAt_digit_quote hD hDw S),
    san_true_cons, isWordChar_quote]

/-- The last character of a match window is a digit. -/
lemma win_getLast {A W D : List Char} (hD : D ≠ [])
    (hDd : ∀ c ∈ D, c.isDigit = true) :
    ∃ dd, (A ++ '.' :: (W ++ '.' :: D)).getLast? = some dd ∧ dd.isDigit = true := by
  obtain ⟨q, dd, hq⟩ := (List.eq_nil_or_concat D).resolve_left hD
  refine ⟨dd, ?_, hDd dd (by rw [hq]; simp)⟩
  rw [show A ++ '.' :: (W ++ '.' :: D) = (A ++ '.' :: (W ++ '.' :: q)) ++ [dd] by
    rw [hq]; simp]
  exact List.getLast?_concat _

/-- Every character of a match window is a word character or a dot. -/
lemma win_chars {A W D : List Char} (hAw : ∀ c ∈ A, isWordChar c = true)
    (hWw : ∀ c ∈ W, isWordChar c = true) (hDd : ∀ c ∈ D, c.isDigit = true) :
    ∀ x ∈ A ++ '.' :: (W ++ '.' :: D), isWordChar x = true ∨ x = '.' := by
  intro x hx
  simp only [List.mem_append, List.mem_cons] at hx
  rcases hx with hx | hx | hx | hx | hx
  · exact Or.inl (hAw x hx)
  · exact Or.inr hx
  · exact Or.inl (hWw x hx)
  · exact Or.inr hx
  · exact Or.inl (isWordChar_of_isDigit (hDd x hx))

/-- A failing window stays failing after the tail is sanitized. -/
lemma matchAt_none_preserved {c : Char} {cs : List Char} (b : Bool)
    (h : matchAt (c :: cs) = none) : matchAt (c :: sanList b cs) = none := by
  rcases sanList_div cs.length cs le_rfl b with h1 | ⟨p, tl, tl', hdec, hout, hp⟩
  · rw [h1]
    exact h
  · rw [hout]
    cases hm : matchAt (c :: (p ++ '"' :: tl')) with
    | none => rfl
    | some t =>
      obtain ⟨A, W, D, rest1⟩ := t
      exfalso
      obtain ⟨hdec2, hA, hAw, hW, hWw, hD, hDd, hrest⟩ := matchAt_decomp hm
      have hpne : p ≠ [] := by
        intro h0
        rw [h0] at hp
        exact Option.noConfusion hp
      have hPre : (c :: p).getLast? = some '.' := by
        rw [show c :: p = [c] ++ p by rfl, List.getLast?_append_of_ne_nil _ hpne]
        exact hp
      obtain ⟨dd, hdd, hdig⟩ := @win_getLast A W D hD hDd
      have hWc := win_chars hAw hWw hDd
      have hsplit : (c :: p) ++ '"' :: tl' = (A ++ '.' :: (W ++ '.' :: D)) ++ rest1 := by
        simpa using hdec2
      rcases List.append_eq_append_iff.mp hsplit with ⟨a, hWin, hq⟩ | ⟨q, hPre2, hrest2⟩
      · cases a with
        | nil =>
          rw [List.append_nil] at hWin
          rw [hWin, hPre] at hdd
          rw [show dd = '.' from (Option.some_inj.mp hdd).symm] at hdig
          exact absurd hdig (by decide)
        | cons q0 a'' =>
          have hq0 : q0 = '"' := by
            have := congrArg List.head? hq
            simpa using this.symm
          subst hq0
          have : ('"' : Char) ∈ A ++ '.' :: (W ++ '.' :: D) := by
            rw [hWin]
            simp
          rcases hWc '"' this with hh | hh
          · rw [isWordChar_quote] at hh
            exact Bool.noConfusion hh
          · exact absurd hh (by decide)
      · cases q with
        | nil =>
          rw [List.append_nil] at hPre2
          rw [hPre2, hdd] at hPre
          have : ('.' : Char).isDigit = true := by
            rw [show dd = '.' from (Option.some_inj.mp hPre)] at hdig
            exact hdig
          exact absurd this (by decide)
        | cons d0 q'' =>
          have hd0 : isWordChar d0 = false := by
            rw [hrest2] at hrest
            simpa [headIsWord] using hrest
          have hcs : c :: cs = A ++ '.' :: (W ++ '.' :: (D ++ (d0 :: (q'' ++ tl)))) := by
            calc c :: cs = (c :: p) ++ tl := by rw [hdec]; rfl
              _ = ((A ++ '.' :: (W ++ '.' :: D)) ++ (d0 :: q'')) ++ tl := by rw [hPre2]
              _ = A ++ '.' :: (W ++ '.' :: (D ++ (d0 :: (q'' ++ tl)))) := by simp
          have hmm := matchAt_of_shape hA hAw hW hWw hD hDd
            (show headIsWord (d0 :: (q'' ++ tl)) = false by simpa [headIsWord] using hd0)
          rw [hcs, hmm] at h
          exact Option.noConfusion h

/-- The head-word test only depends on the optional head. -/
lemma headIsWord_eq_of_head {l l' : List Char} (h : l.head? = l'.head?) :
    headIsWord l = headIsWord l' := by
  cases l with
  | nil =>
    cases l' with
    | nil => rfl
    | cons d ds => simp at h
  | cons c cs =>
    cases l' with
    | nil => simp at h
    | cons d ds =>
      have : c = d := by simpa using h
      subst this
      rfl

/-- The saturated scanner is idempotent. -/
lemma sanIdem :
    ∀ (n : Nat) (l : List Char), l.length ≤ n → ∀ b : Bool,
      sanList b (sanList b l) = sanList b l := by
  intro n
  induction n with
  | zero =>
    intro l hl b
    have : l = [] := List.length_eq_zero.mp (Nat.le_zero.mp hl)
    subst this
    simp [sanList_nil]
  | succ n ih =>
    intro l hl b
    cases l with
    | nil => simp [sanList_nil]
    | cons c cs =>
      simp only [List.length_cons] at hl
      cases hm : (if b then none else matchAt (c :: cs)) with
      | none =>
        rw [sanList_copy hm]
        have hcopy2 : (if b then none else matchAt (c :: sanList (isWordChar c) cs)) = none := by
          cases b with
          | true => rfl
          | false =>
            have hm' : matchAt (c :: cs) = none := by simpa using hm
            simpa using matchAt_none_preserved (isWordChar c) hm'
        rw [sanList_copy hcopy2, ih cs (by omega) (isWordChar c)]
      | some t =>
        obtain ⟨A, W, D, rest⟩ := t
        have hb : b = false := by
          cases b with
          | true => simp at hm
          | false => rfl
        subst hb
        have hm' : matchAt (c :: cs) = some (A, W, D, rest) := by simpa using hm
        rw [sanList_rewrite hm']
        obtain ⟨hdec, hA, hAw, hW, hWw, hD, hDd, hrest⟩ := matchAt_decomp hm'
        have hlen := matchAt_length hm'
        simp only [List.length_cons] at hlen
        have hS : sanList true (sanList true rest) = sanList true rest :=
          ih rest (by omega) true
        have hhead : headIsWord (sanList true rest) = false := by
          rw [headIsWord_eq_of_head (sanList_head true rest)]
          exact hrest
        have hSfix : sanList false (sanList true rest) = sanList true rest := by
          rw [sanList_flag hhead false true, hS]
        rw [san_walk hA hAw hW hWw hD hDd (sanList true rest), hSfix]

/-- `sanitize_dot_columns` is idempotent. -/
lemma sanitize_idem (s : String) :
    sanitize_dot_columns (sanitize_dot_columns s) = sanitize_dot_columns s := by
  show String.mk (sanList false (sanList false s.toList)) = String.mk (sanList false s.toList)
  rw [sanIdem s.toList.length s.toList le_rfl false]

/-- The normalizer as a composition of its three stages. -/
lemma normalizeSql_eq (z : String) :
    normalizeSql z = sanitize_dot_columns (truncSemi (stripRepl z)) := rfl

/-- A single-character occurrence test is membership. -/
lemma hasOcc_single_iff_mem (c : Char) :
    ∀ l : List Char, (hasOcc [c] l = true ↔ c ∈ l) := by
  intro l
  induction l with
  | nil => simp [hasOcc, List.isPrefixOf]
  | cons x xs ih =>
    rw [hasOcc_cons]
    simp [List.isPrefixOf_cons₂, List.isPrefixOf, ih, beq_iff_eq]

/-- The head surviving `dropWhile` fails the predicate. -/
lemma dropWhile_head_not {p : Char → Bool} :
    ∀ (l : List Char) {c : Char}, (l.dropWhile p).head? = some c → p c = false := by
  intro l
  induction l with
  | nil => intro c h; simp at h
  | cons a as ih =>
    intro c h
    rw [List.dropWhile_cons] at h
    by_cases hp : p a = true
    · rw [if_pos hp] at h
      exact ih h
    · rw [if_neg hp] at h
      have : a = c := by simpa using h
      subst this
      exact Bool.eq_false_iff.mpr hp

/-- The first character of a stripped string is not whitespace. -/
lemma pyStrip_head_not_space (z : String) {c : Char}
    (h : (pyStrip z).toList.head? = some c) : isPySpace c = false := by
  have hsuf : ((z.toList.dropWhile isPySpace).reverse.dropWhile isPySpace) <:+
      (z.toList.dropWhile isPySpace).reverse := List.dropWhile_suffix _
  have hpre : ((z.toList.dropWhile isPySpace).reverse.dropWhile isPySpace).reverse <+:
      (z.toList.dropWhile isPySpace) := by
    rw [← List.reverse_suffix]
    simpa using hsuf
  obtain ⟨t, ht⟩ := hpre
  have h0 : (((z.toList.dropWhile isPySpace).reverse.dropWhile isPySpace).reverse).head?
      = some c := h
  have hd1 : (z.toList.dropWhile isPySpace).head? = some c := by
    rw [← ht]
    cases hrev : ((z.toList.dropWhile isPySpace).reverse.dropWhile isPySpace).reverse with
    | nil => rw [hrev] at h0; simp at h0
    | cons x xs =>
      rw [hrev] at h0
      simpa using h0
  exact dropWhile_head_not z.toList hd1

/-- The last character of a stripped string is not whitespace. -/
lemma pyStrip_last_not_space (z : String) {c : Char}
    (h : (pyStrip z).toList.getLast? = some c) : isPySpace c = false := by
  have h0 : (((z.toList.dropWhile isPySpace).reverse.dropWhile isPySpace).reverse).getLast?
      = some c := h
  rw [List.getLast?_reverse] at h0
  exact dropWhile_head_not _ h0

/-- A string whose ends are not whitespace is a `strip` fixpoint. -/
lemma pyStrip_id_of_ends {s : String}
    (hh : ∀ c, s.toList.head? = some c → isPySpace c = false)
    (ht : ∀ c, s.toList.getLast? = some c → isPySpace c = false) :
    pyStrip s = s := by
  have h1 : s.toList.dropWhile isPySpace = s.toList := by
    cases hl : s.toList with
    | nil => rfl
    | cons c cs =>
      have hc : isPySpace c = false := hh c (by rw [hl]; rfl)
      simp [List.dropWhile_cons, hc]
  have h2 : s.toList.reverse.dropWhile isPySpace = s.toList.reverse := by
    cases hl : s.toList.reverse with
    | nil => rfl
    | cons c cs =>
      have hc : isPySpace c = false := by
        apply ht
        rw [← List.head?_reverse, hl]
        rfl
      simp [List.dropWhile_cons, hc]
  show String.mk ((s.toList.dropWhile isPySpace).reverse.dropWhile isPySpace).reverse = s
  rw [h1, h2, List.reverse_reverse]
  rfl

/-- Removing every fence marker leaves a marker-free string. -/
lemma replace_trip_free (s : String) :
    hasOcc tripleTick (pyReplace s "```" "").toList = false := by
  have h1 : ("```" : String).toList = tripleTick := rfl
  have hne : ("```" : String).toList ≠ [] := by rw [h1]; simp [tripleTick]
  unfold pyReplace
  rw [if_neg hne]
  show hasOcc tripleTick (replFuel ("```" : String).toList ("" : String).toList
    (s.toList.length + 1) s.toList) = false
  rw [h1, show ("" : String).toList = [] from rfl]
  exact replTriple_tripleFree _ _ (by omega)

/-- Stripping whitespace preserves the absence of a pattern. -/
lemma pyStrip_free {pat : List Char} (s : String)
    (h : hasOcc pat s.toList = false) : hasOcc pat (pyStrip s).toList = false := by
  have hsuf1 : s.toList.dropWhile isPySpace <:+ s.toList := List.dropWhile_suffix _
  obtain ⟨t1, ht1⟩ := hsuf1
  have h1 : hasOcc pat (s.toList.dropWhile isPySpace) = false := by
    rw [← ht1] at h
    exact (hasOcc_append_false h).2
  have hsuf2 : (s.toList.dropWhile isPySpace).reverse.dropWhile isPySpace <:+
      (s.toList.dropWhile isPySpace).reverse := List.dropWhile_suffix _
  obtain ⟨t2, ht2⟩ := hsuf2
  have hsplit := congrArg List.reverse ht2
  rw [List.reverse_append, List.reverse_reverse] at hsplit
  rw [← hsplit] at h1
  have h2 := (hasOcc_append_false h1).1
  exact h2

/-- Truncation preserves the absence of the fence marker. -/
lemma truncSemi_trip_free {s : String} (h : hasOcc tripleTick s.toList = false) :
    hasOcc tripleTick (truncSemi s).toList = false := by
  unfold truncSemi
  by_cases hc : containsSub s ";" = true
  · rw [if_pos hc]
    have hpre : s.toList.takeWhile (fun c => c ≠ ';') <+: s.toList :=
      List.takeWhile_prefix _
    obtain ⟨t, ht⟩ := hpre
    have h1 : hasOcc tripleTick (s.toList.takeWhile (fun c => c ≠ ';')) = false := by
      rw [← ht] at h
      exact (hasOcc_append_false h).1
    show hasOcc tripleTick (s.toList.takeWhile (fun c => c ≠ ';') ++ [';']) = false
    exact tripleFree_append_single h1 (by decide)
  · rw [if_neg hc]
    exact h

/-- The head of the truncated string is the head of the input or a semicolon. -/
lemma truncSemi_head {s : String} {c : Char}
    (h : (truncSemi s).toList.head? = some c) :
    s.toList.head? = some c ∨ c = ';' := by
  unfold truncSemi at h
  by_cases hc : containsSub s ";" = true
  · rw [if_pos hc] at h
    have h0 : (s.toList.takeWhile (fun c => c ≠ ';') ++ [';']).head? = some c := h
    have hpre : s.toList.takeWhile (fun c => c ≠ ';') <+: s.toList :=
      List.takeWhile_prefix _
    obtain ⟨t, ht⟩ := hpre
    cases htk : s.toList.takeWhile (fun c => c ≠ ';') with
    | nil =>
      rw [htk] at h0
      right
      simpa using h0.symm
    | cons x xs =>
      rw [htk] at h0 ht
      left
      rw [← ht]
      simpa using h0
  · rw [if_neg hc] at h
    exact Or.inl h

/-- The last character of the truncated string is the input's or a semicolon. -/
lemma truncSemi_last {s : String} {c : Char}
    (h : (truncSemi s).toList.getLast? = some c) :
    s.toList.getLast? = some c ∨ c = ';' := by
  unfold truncSemi at h
  by_cases hc : containsSub s ";" = true
  · rw [if_pos hc] at h
    have h0 : (s.toList.takeWhile (fun c => c ≠ ';') ++ [';']).getLast? = some c := h
    rw [List.getLast?_concat] at h0
    right
    exact (Option.some_inj.mp h0).symm
  · rw [if_neg hc] at h
    exact Or.inl h

/-- The word-boundary test survives an appended semicolon. -/
lemma headIsWord_semi {rest : List Char} (h : headIsWord rest = false) :
    headIsWord (rest ++ [';']) = false := by
  cases rest with
  | nil => decide
  | cons r rs => simpa [headIsWord] using h

/-- A successful window absorbs an appended semicolon into its remainder. -/
lemma matchAt_semi_some {l A W D rest : List Char}
    (h : matchAt l = some (A, W, D, rest)) :
    matchAt (l ++ [';']) = some (A, W, D, rest ++ [';']) := by
  obtain ⟨hdec, hA, hAw, hW, hWw, hD, hDd, hrest⟩ := matchAt_decomp h
  have h2 := matchAt_of_shape hA hAw hW hWw hD hDd (headIsWord_semi hrest)
  rw [show l ++ [';'] = A ++ '.' :: (W ++ '.' :: (D ++ (rest ++ [';']))) by rw [hdec]; simp]
  exact h2

/-- A failing window stays failing after an appended semicolon. -/
lemma matchAt_semi_none {l : List Char} (h : matchAt l = none) :
    matchAt (l ++ [';']) = none := by
  cases hm : matchAt (l ++ [';']) with
  | none => rfl
  | some t =>
    obtain ⟨A, W, D, rest1⟩ := t
    exfalso
    obtain ⟨hdec, hA, hAw, hW, hWw, hD, hDd, hrest⟩ := matchAt_decomp hm
    obtain ⟨dd, hdd, hdig⟩ := @win_getLast A W D hD hDd
    have h1 : (l ++ [';']).getLast? = some ';' := List.getLast?_concat _
    rcases List.eq_nil_or_concat rest1 with h0 | ⟨q, e, hq⟩
    · subst h0
      rw [List.append_nil] at hdec
      rw [hdec, hdd] at h1
      rw [show dd = ';' from Option.some_inj.mp h1] at hdig
      exact absurd hdig (by decide)
    · rw [List.concat_eq_append] at hq
      have hlast : (l ++ [';']).getLast? = rest1.getLast? := by
        rw [hdec, show A ++ '.' :: (W ++ '.' :: (D ++ rest1)) =
          (A ++ '.' :: (W ++ '.' :: D)) ++ rest1 by simp]
        exact List.getLast?_append_of_ne_nil _ (by rw [hq]; simp)
      have h2 : rest1.getLast? = some e := by
        rw [hq]
        exact List.getLast?_concat _
      rw [h1, h2] at hlast
      have he : e = ';' := (Option.some_inj.mp hlast).symm
      subst he
      have hl2 : l = A ++ '.' :: (W ++ '.' :: (D ++ q)) := by
        have hsplit : l ++ [';'] = (A ++ '.' :: (W ++ '.' :: (D ++ q))) ++ [';'] := by
          rw [hdec, hq]
          simp
        exact List.append_inj_left' hsplit rfl
      have hq2 : headIsWord q = false := by
        cases q with
        | nil => rfl
        | cons x xs =>
          rw [hq] at hrest
          simpa [headIsWord] using hrest
      have hmm := matchAt_of_shape hA hAw hW hWw hD hDd hq2
      rw [hl2, hmm] at h
      exact Option.noConfusion h

/-- The scanner commutes with an appended trailing semicolon. -/
lemma sanList_semi :
    ∀ (n : Nat) (l : List Char), l.length ≤ n → ∀ b : Bool,
      sanList b (l ++ [';']) = sanList b l ++ [';'] := by
  intro n
  induction n with
  | zero =>
    intro l hl b
    have : l = [] := List.length_eq_zero.mp (Nat.le_zero.mp hl)
    subst this
    have hm : (if b then none else matchAt [';']) = none := by
      cases b with
      | true => rfl
      | false => simpa using matchAt_headNotWord (show headIsWord [';'] = false by decide)
    show sanList b [';'] = sanList b [] ++ [';']
    rw [sanList_copy hm, sanList_nil, sanList_nil]
    rfl
  | succ n ih =>
    intro l hl b
    cases l with
    | nil =>
      have hm : (if b then none else matchAt [';']) = none := by
        cases b with
        | true => rfl
        | false => simpa using matchAt_headNotWord (show headIsWord [';'] = false by decide)
      show sanList b [';'] = sanList b [] ++ [';']
      rw [sanList_copy hm, sanList_nil, sanList_nil]
      rfl
    | cons c cs =>
      simp only [List.length_cons] at hl
      simp only [List.cons_append]
      cases hm : (if b then none else matchAt (c :: cs)) with
      | none =>
        have hm2 : (if b then none else matchAt (c :: (cs ++ [';']))) = none := by
          cases b with
          | true => rfl
          | false =>
            have := @matchAt_semi_none (c :: cs) (by simpa using hm)
            simpa using this
        rw [sanList_copy hm2, sanList_copy hm, ih cs (by omega) (isWordChar c)]
        rfl
      | some t =>
        obtain ⟨A, W, D, rest⟩ := t
        have hb : b = false := by
          cases b with
          | true => simp at hm
          | false => rfl
        subst hb
        have hm' : matchAt (c :: cs) = some (A, W, D, rest) := by simpa using hm
        have hm2 : matchAt (c :: (cs ++ [';'])) = some (A, W, D, rest ++ [';']) := by
          have := matchAt_semi_some hm'
          simpa using this
        rw [sanList_rewrite hm2, sanList_rewrite hm']
        have hlen := matchAt_length hm'
        simp only [List.length_cons] at hlen
        rw [ih rest (by omega) true]
        simp

/-- The strip stage leaves no fence marker. -/
lemma stripRepl_trip_free (z : String) :
    hasOcc tripleTick (stripRepl z).toList = false := by
  unfold stripRepl
  exact pyStrip_free _ (replace_trip_free _)

/-- A string already in the normalizer's image is a fixpoint of the
normalizer, given the five normal-form properties. -/
lemma normalize_fixpoint {y : String}
    (htrip : hasOcc tripleTick y.toList = false)
    (hhead : ∀ c, y.toList.head? = some c → isPySpace c = false)
    (hlast : ∀ c, y.toList.getLast? = some c → isPySpace c = false)
    (hsemi : containsSub y ";" = true →
        ∃ X, y.toList = X ++ [';'] ∧ ∀ x ∈ X, x ≠ ';')
    (hsan : sanitize_dot_columns y = y) :
    normalizeSql y = y := by
  have hsql : hasOcc ("```sql" : String).toList y.toList = false := by
    cases h : hasOcc ("```sql" : String).toList y.toList with
    | false => rfl
    | true =>
      exfalso
      have h6 : ("```sql" : String).toList = tripleTick ++ ("sql" : String).toList := rfl
      rw [h6] at h
      rw [hasOcc_of_hasOcc_append _ h] at htrip
      exact Bool.noConfusion htrip
  have e1 : pyReplace y "```sql" "" = y := pyReplace_id (by decide) hsql
  have e2 : pyReplace y "```" "" = y :=
    pyReplace_id (by decide)
      (by rw [show ("```" : String).toList = tripleTick from rfl]; exact htrip)
  have e3 : pyStrip y = y := pyStrip_id_of_ends hhead hlast
  rw [normalizeSql_eq]
  have es : stripRepl y = y := by
    unfold stripRepl
    rw [e1, e2, e3]
  rw [es]
  unfold truncSemi
  by_cases hc : containsSub y ";" = true
  · rw [if_pos hc]
    obtain ⟨X, hX, hXs⟩ := hsemi hc
    have h0 : ([';'] : List Char).takeWhile (fun c => c ≠ ';') = [] := by decide
    have htake : y.toList.takeWhile (fun c => c ≠ ';') = X := by
      rw [hX, takeWhile_append_all (fun x hx => by simpa using hXs x hx), h0,
        List.append_nil]
    rw [htake]
    have hfin : sanitize_dot_columns (String.mk X ++ ";") =
        String.mk (sanList false (X ++ [';'])) := rfl
    rw [hfin, show X ++ [';'] = y.toList from hX.symm]
    exact hsan
  · rw [if_neg hc]
    exact hsan

/-- Renormalizing a normalized statement is the identity. -/
lemma normalizeSql_idem (raw : String) :
    normalizeSql (normalizeSql raw) = normalizeSql raw := by
  have htrip : hasOcc tripleTick (normalizeSql raw).toList = false := by
    show hasOcc tripleTick (sanList false (truncSemi (stripRepl raw)).toList) = false
    exact sanList_noTriple _ _ le_rfl false (truncSemi_trip_free (stripRepl_trip_free raw))
  refine normalize_fixpoint htrip ?_ ?_ ?_ ?_
  · intro c h
    have h0 : (sanList false (truncSemi (stripRepl raw)).toList).head? = some c := h
    rw [sanList_head] at h0
    rcases truncSemi_head h0 with h1 | h1
    · exact pyStrip_head_not_space _ h1
    · rw [h1]
      decide
  · intro c h
    have h0 : (sanList false (truncSemi (stripRepl raw)).toList).getLast? = some c := h
    by_cases hnil : (truncSemi (stripRepl raw)).toList = []
    · rw [hnil, sanList_nil] at h0
      simp at h0
    · rcases sanList_getLast ((truncSemi (stripRepl raw)).toList.length) _ le_rfl false hnil
        with h1 | h1
      · rw [h0] at h1
        rcases truncSemi_last h1.symm with h2 | h2
        · exact pyStrip_last_not_space _ h2
        · rw [h2]
          decide
      · rw [h0] at h1
        rw [show c = '"' from Option.some_inj.mp h1]
        decide
  · intro hy
    by_cases hc : containsSub (stripRepl raw) ";" = true
    · have ht : truncSemi (stripRepl raw) =
          String.mk ((stripRepl raw).toList.takeWhile (fun c => c ≠ ';')) ++ ";" := by
        unfold truncSemi
        rw [if_pos hc]
      refine ⟨sanList false ((stripRepl raw).toList.takeWhile (fun c => c ≠ ';')), ?_, ?_⟩
      · show sanList false (truncSemi (stripRepl raw)).toList = _ ++ [';']
        rw [ht]
        show sanList false
          ((stripRepl raw).toList.takeWhile (fun c => c ≠ ';') ++ [';']) = _
        exact sanList_semi _ _ le_rfl false
      · intro x hx
        rcases sanList_chars _ _ le_rfl false x hx with h1 | h1
        · have := List.mem_takeWhile_imp h1
          simpa using this
        · rw [h1]
          decide
    · exfalso
      have hnot : hasOcc [';'] (stripRepl raw).toList = false := by
        cases h : hasOcc [';'] (stripRepl raw).toList with
        | false => rfl
        | true => exact absurd (show containsSub (stripRepl raw) ";" = true from h) hc
      have htr : truncSemi (stripRepl raw) = stripRepl raw := by
        unfold truncSemi
        rw [if_neg hc]
      have hymem : (';' : Char) ∈ sanList false (truncSemi (stripRepl raw)).toList :=
        (hasOcc_single_iff_mem ';' _).mp hy
      rw [htr] at hymem
      rcases sanList_chars _ _ le_rfl false ';' hymem with h1 | h1
      · rw [(hasOcc_single_iff_mem ';' _).mpr h1] at hnot
        exact Bool.noConfusion hnot
      · exact absurd h1 (by decide)
  · exact sanitize_idem (truncSemi (stripRepl raw))

/-- **C6**: the SQL normalizer is idempotent: applying the normalization
(fence stripping, first-statement truncation and the dotted-column quoting
rewrite) to its own output returns that output unchanged, and in particular
the dotted-column rewrite `sanitize_dot_columns` is idempotent on every
string. -/
theorem C6_normalizer_idempotent :
    (∀ raw : String, normalizeSql (normalizeSql raw) = normalizeSql raw) ∧
    (∀ s : String, sanitize_dot_columns (sanitize_dot_columns s) = sanitize_dot_columns s) :=
  ⟨normalizeSql_idem, sanitize_idem⟩
